import Mathlib

set_option maxHeartbeats 1000000

/-!
Verification of the sauron virtual-DOM diff/patch core.

This file gives a shallow embedding of the repository's skip-diff
protocol (`src/crates/core/src/dom/application/skip_diff.rs`), the
patch conversion and application layer
(`src/crates/core/src/dom/dom_patch.rs`), the templated view equality
(`src/crates/core/src/vdom/templated_view.rs`), and a model of the
diff engine described by the specification (the `diff` module itself
is not part of the provided sources).  Theorems about the embedded
definitions settle the specification claims.
-/

/-! ### Tree paths

`TreePath` (from `vdom::TreePath`, described in the spec as an ordered
sequence of child indices): `root()` is the empty sequence and
`traverse i` appends the index `i`. -/

abbrev TreePath := List Nat

def TreePath.root : TreePath := []

def TreePath.traverse (p : TreePath) (i : Nat) : TreePath := p ++ [i]

/-- Tree order on paths: lexicographic order where a parent (prefix)
comes before its descendants and siblings are ordered by index. -/
def pathLt (p q : TreePath) : Prop := List.Lex (· < ·) p q

/-- `remainderAfter pre p` strips the prefix `pre` from `p`, when `pre`
is indeed a prefix of `p`. -/
def remainderAfter : List Nat → List Nat → Option (List Nat)
  | [], p => some p
  | _ :: _, [] => none
  | a :: as, b :: bs => if a = b then remainderAfter as bs else none

/-! ### SkipDiff

Embedding of `SkipDiff` from
`src/crates/core/src/dom/application/skip_diff.rs`.  The decision is a
boxed closure `Box<dyn Fn() -> bool>`, embedded as `Unit → Bool`. -/

inductive SkipDiff : Type where
  | mk (expr : Unit → Bool) (children : List SkipDiff)

def SkipDiff.expr : SkipDiff → (Unit → Bool)
  | .mk e _ => e

def SkipDiff.children : SkipDiff → List SkipDiff
  | .mk _ cs => cs

/-- `SkipDiff::new(val, children)`: decision closure constantly returning
`val`. -/
def SkipDiff.new (val : Bool) (children : List SkipDiff) : SkipDiff :=
  .mk (fun _ => val) children

/-- `skip_if` from the source: an alias of `SkipDiff::new`. -/
def skip_if (val : Bool) (children : List SkipDiff) : SkipDiff :=
  SkipDiff.new val children

mutual

/-- `SkipDiff::traverse_recursive`: pushes the current path when the
decision evaluates to false, then traverses the children. -/
def SkipDiff.traverse_recursive : SkipDiff → TreePath → List TreePath
  | .mk e cs, current =>
    (if !(e ()) then [current] else []) ++ SkipDiff.traverse_list_from cs current 0

/-- `SkipDiff::traverse_list` with the enumeration counter made
explicit: the `i`-th element (counting from the given start index) is
traversed at `current.traverse i`. -/
def SkipDiff.traverse_list_from : List SkipDiff → TreePath → Nat → List TreePath
  | [], _, _ => []
  | e :: es, current, i =>
    SkipDiff.traverse_recursive e (TreePath.traverse current i) ++
      SkipDiff.traverse_list_from es current (i + 1)

end

/-- `SkipDiff::traverse_list(evals, current)` enumerates from 0. -/
def SkipDiff.traverse_list (evals : List SkipDiff) (current : TreePath) : List TreePath :=
  SkipDiff.traverse_list_from evals current 0

/-- `SkipDiff::traverse`: a single root is traversed at the root path,
a list of sibling roots is traversed with one index per root. -/
def SkipDiff.traverse : List SkipDiff → List TreePath
  | [e] => SkipDiff.traverse_recursive e TreePath.root
  | evals => SkipDiff.traverse_list evals TreePath.root

/-- `SkipDiff::is_skippable_recursive`: own decision true and all
children recursively skippable. -/
def SkipDiff.is_skippable_recursive : SkipDiff → Bool
  | .mk e cs => e () && cs.attach.all (fun c => SkipDiff.is_skippable_recursive c.1)
decreasing_by
  have := List.sizeOf_lt_of_mem c.2
  simp only [SkipDiff.mk.sizeOf_spec]
  omega

mutual

/-- The `PartialEq` implementation for `SkipDiff`: compares the
evaluated decisions and, pointwise, the children (Rust `Vec` equality). -/
def SkipDiff.beq : SkipDiff → SkipDiff → Bool
  | .mk e1 cs1, .mk e2 cs2 => e1 () == e2 () && SkipDiff.beqList cs1 cs2

/-- `Vec<SkipDiff>` equality: same length and pointwise `beq`. -/
def SkipDiff.beqList : List SkipDiff → List SkipDiff → Bool
  | [], [] => true
  | a :: as, b :: bs => SkipDiff.beq a b && SkipDiff.beqList as bs
  | _, _ => false

end

/-- Node lookup by path inside a single `SkipDiff` tree. -/
def SkipDiff.nodeAt : SkipDiff → TreePath → Option SkipDiff
  | s, [] => some s
  | .mk _ cs, i :: rest =>
    match cs[i]? with
    | some c => SkipDiff.nodeAt c rest
    | none => none

/-- Node lookup by path inside a forest of sibling roots: the first
index selects the root. -/
def SkipDiff.nodeAtForest : List SkipDiff → TreePath → Option SkipDiff
  | _, [] => none
  | evals, i :: rest => (evals[i]?).bind (fun s => SkipDiff.nodeAt s rest)

/-- Path addressing as used by `SkipDiff::traverse`: a singleton list
is addressed relative to its unique root, a longer (or empty) list as
a forest. -/
def SkipDiff.nodeAtEvals : List SkipDiff → TreePath → Option SkipDiff
  | [s], p => SkipDiff.nodeAt s p
  | evals, p => SkipDiff.nodeAtForest evals p

mutual

/-- The trace of decision evaluations performed by
`traverse_recursive`: the source evaluates `(self.expr)()` exactly
once per visited node (in the `if` guard), before visiting the
children. -/
def SkipDiff.evalTrace : SkipDiff → TreePath → List TreePath
  | .mk _ cs, current => current :: SkipDiff.evalTraceList cs current 0

/-- Evaluation trace of `traverse_list`, with the enumeration counter
made explicit. -/
def SkipDiff.evalTraceList : List SkipDiff → TreePath → Nat → List TreePath
  | [], _, _ => []
  | e :: es, current, i =>
    SkipDiff.evalTrace e (TreePath.traverse current i) ++
      SkipDiff.evalTraceList es current (i + 1)

end

/-- Evaluation trace of `SkipDiff::traverse` (same dispatch on a
singleton list as `traverse`). -/
def SkipDiff.evalTraceTop : List SkipDiff → List TreePath
  | [e] => SkipDiff.evalTrace e TreePath.root
  | evals => SkipDiff.evalTraceList evals TreePath.root 0

/-! ### Strong induction for SkipDiff -/

def SkipDiff.strongInd {P : SkipDiff → Prop}
    (h : ∀ e cs, (∀ c ∈ cs, P c) → P (.mk e cs)) : ∀ s, P s
  | .mk e cs => h e cs (fun c hc => SkipDiff.strongInd h c)
decreasing_by
  have := List.sizeOf_lt_of_mem hc
  simp only [SkipDiff.mk.sizeOf_spec]
  omega

/-! ### Virtual tree data model

The vdom node/attribute modules themselves are not among the provided
sources; the data model below follows the spec (§3): nodes are
elements, leaves or fragments; attributes have a name, an optional
namespace and a list of typed values. -/

/-- Modelled from the spec: scalar values carried by simple attribute
values (the concrete `Value` type of the source is not under `src/`). -/
inductive Value where
  | str (s : String)
  | bool (b : Bool)
  | int (n : Int)
deriving DecidableEq

/-- Modelled from the spec: the closed union of attribute value kinds
(§3): Simple, Style, EventListener, FunctionCall, Empty.  Event
listeners are opaque callback references, embedded as handles. -/
inductive AttributeValue where
  | Simple (v : Value)
  | Style (entries : List (String × String))
  | EventListener (cb : Nat)
  | FunctionCall (v : Value)
  | Empty
deriving DecidableEq

/-- Modelled from the spec: an attribute has a name, an optional
namespace and an ordered sequence of values. -/
structure Attribute where
  ns : Option String
  name : String
  value : List AttributeValue
deriving DecidableEq

/-- Modelled from the spec: leaf content is opaque (text, comment or
an embedded component description). -/
inductive LeafContent where
  | Text (s : String)
  | Comment (s : String)
  | Component (id : Nat)
deriving DecidableEq

/-- Modelled from the spec: a virtual node is an element (tag,
namespace, attributes, children), a leaf, or a fragment of sibling
nodes. -/
inductive Node where
  | Element (tag : String) (ns : Option String) (attrs : List Attribute) (children : List Node)
  | Leaf (content : LeafContent)
  | Fragment (children : List Node)

mutual

/-- Structural equality on virtual nodes (the derived `PartialEq` of
the source tree type). -/
def Node.beq : Node → Node → Bool
  | .Element t1 n1 a1 c1, .Element t2 n2 a2 c2 =>
    t1 == t2 && n1 == n2 && a1 == a2 && Node.beqList c1 c2
  | .Leaf l1, .Leaf l2 => l1 == l2
  | .Fragment c1, .Fragment c2 => Node.beqList c1 c2
  | _, _ => false

/-- Pointwise equality on child lists. -/
def Node.beqList : List Node → List Node → Bool
  | [], [] => true
  | a :: as, b :: bs => Node.beq a b && Node.beqList as bs
  | _, _ => false

end

/-- Strong induction over the nested `Node` inductive. -/
def Node.strongInd {P : Node → Prop}
    (hel : ∀ t ns attrs cs, (∀ c ∈ cs, P c) → P (.Element t ns attrs cs))
    (hlf : ∀ l, P (.Leaf l))
    (hfr : ∀ cs, (∀ c ∈ cs, P c) → P (.Fragment cs)) : ∀ n, P n
  | .Element t ns attrs cs =>
    hel t ns attrs cs (fun c hc => Node.strongInd hel hlf hfr c)
  | .Leaf l => hlf l
  | .Fragment cs => hfr cs (fun c hc => Node.strongInd hel hlf hfr c)
decreasing_by
  all_goals
    have := List.sizeOf_lt_of_mem hc
    first
    | simp only [Node.Element.sizeOf_spec]; omega
    | simp only [Node.Fragment.sizeOf_spec]; omega

/-! ### Patches

Modelled from the spec (§3 and §6; the `vdom::patch` module is not
under `src/`): a patch has a path into the previous tree, an optional
expected tag, and a typed payload.  The `Move*` variants carry
`TreePath`s identifying the nodes to relocate. -/

inductive PatchType where
  | InsertBeforeNode (nodes : List Node)
  | InsertAfterNode (nodes : List Node)
  | AppendChildren (children : List Node)
  | AddAttributes (attrs : List Attribute)
  | RemoveAttributes (attrs : List Attribute)
  | ReplaceNode (replacement : List Node)
  | RemoveNode
  | ClearChildren
  | MoveBeforeNode (nodes_path : List TreePath)
  | MoveAfterNode (nodes_path : List TreePath)

structure Patch where
  patch_path : TreePath
  tag : Option String
  patch_type : PatchType

/-- `Patch::path()`. -/
def Patch.path (p : Patch) : TreePath := p.patch_path

/-- Modelled from the spec: `Patch::node_paths()` returns the
auxiliary move-source paths carried inside `MoveBeforeNode` and
`MoveAfterNode`, and nothing for other variants. -/
def Patch.node_paths (p : Patch) : List TreePath :=
  match p.patch_type with
  | .MoveBeforeNode nodes_path => nodes_path
  | .MoveAfterNode nodes_path => nodes_path
  | _ => []

/-! ### Diff engine

Modelled from the spec (§4.2, §4.3; the `vdom::diff` and
`vdom::diff_lis` modules are not under `src/`). -/

/-- Modelled from the spec: the volatile reserved attribute names
(`value`, `checked`, `disabled`, `open`) that are always re-applied. -/
def volatileNames : List String := ["value", "checked", "disabled", "open"]

/-- First attribute with the given name. -/
def lookupAttr (l : List Attribute) (nm : String) : Option Attribute :=
  l.find? (fun a => a.name == nm)

/-- Name list with duplicates removed, keeping first occurrences. -/
def dedupNames : List String → List String
  | [] => []
  | n :: ns => n :: (dedupNames ns).filter (fun m => m ≠ n)

/-- Modelled from the spec: `Attribute::merge_attributes_of_same_name`
(the `vdom::attribute` module is not under `src/`): attributes sharing
a name are merged into a single attribute whose values accumulate, in
first-occurrence order of the names (§3: merged before
comparison/application). -/
def merge_attributes_of_same_name (attrs : List Attribute) : List Attribute :=
  (dedupNames (attrs.map (fun a => a.name))).map (fun nm =>
    { ns := match attrs.find? (fun a => a.name == nm) with
            | some a => a.ns
            | none => none
      name := nm
      value := (attrs.filter (fun a => a.name == nm)).bind (fun a => a.value) })

/-- Modelled from the spec: the reconciliation key of a node is the
value of its `key` attribute, when present. -/
def getKey (n : Node) : Option (List AttributeValue) :=
  match n with
  | .Element _ _ attrs _ => (lookupAttr attrs "key").map (fun a => a.value)
  | _ => none

/-- Modelled from the spec: the `replace` reserved attribute is set on
a node when it carries a simple boolean `true` value (§4.2 step 3). -/
def isReplaceSet (n : Node) : Bool :=
  match n with
  | .Element _ _ attrs _ =>
    attrs.any (fun a => a.name == "replace" && a.value.contains (.Simple (.bool true)))
  | _ => false

/-- Tag of an element node. -/
def nodeTag : Node → Option String
  | .Element t _ _ _ => some t
  | _ => none

/-- Modelled from the spec (§4.2 step 2): node kinds differ, or both
are elements with different tags. -/
def nodeKindDiffers : Node → Node → Bool
  | .Element t1 _ _ _, .Element t2 _ _ _ => t1 != t2
  | .Leaf _, .Leaf _ => false
  | .Fragment _, .Fragment _ => false
  | _, _ => true

/-- Attribute diffing (§4.2 step 6): on merged attribute sets, an
attribute present in old but absent in new is removed; one present in
new and absent or different in old, or volatile, is (re-)applied. -/
def attrDiff (oldAttrs newAttrs : List Attribute) (path : TreePath) (tag : Option String) :
    List Patch :=
  let oldM := merge_attributes_of_same_name oldAttrs
  let newM := merge_attributes_of_same_name newAttrs
  let removes := oldM.filter (fun a => (lookupAttr newM a.name).isNone)
  let adds := newM.filter (fun a =>
    volatileNames.contains a.name ||
      (match lookupAttr oldM a.name with
       | some b => !(b.value == a.value)
       | none => true))
  (if removes.isEmpty then [] else [⟨path, tag, .RemoveAttributes removes⟩]) ++
    (if adds.isEmpty then [] else [⟨path, tag, .AddAttributes adds⟩])

/-- Children paired with their indices, starting at a given index. -/
def enumFrom : Nat → List Node → List (Nat × Node)
  | _, [] => []
  | i, x :: xs => (i, x) :: enumFrom (i + 1) xs

/-- Positional pairing of overlapping children (§4.2 step 5). -/
def zipWithIndex : List Node → List Node → Nat → List (Nat × Node × Node)
  | o :: os, n :: ns, i => (i, o, n) :: zipWithIndex os ns (i + 1)
  | _, _, _ => []

/-- Trailing old children beyond the new length are removed at their
own paths. -/
def removeTrailing (path : TreePath) (olds : List (Nat × Node)) : List Patch :=
  olds.map (fun x => ⟨TreePath.traverse path x.1, nodeTag x.2, .RemoveNode⟩)

/-- A plan for diffing two child lists: the structural patches to emit
plus the (old index, old child, new child) pairs to recurse into. -/
structure ChildPlan where
  patches : List Patch
  pairs : List (Nat × Node × Node)

/-- Positional children diffing (§4.2 step 5): pair children in the
overlapping range; extra old children are removed (a single
`ClearChildren` when the new list is empty); extra new children are
appended as one `AppendChildren`. -/
def positionalPlan (oc nc : List Node) (path : TreePath) (tag : Option String) : ChildPlan :=
  let pairs := zipWithIndex oc nc 0
  let removes :=
    if nc.length < oc.length then
      if nc.isEmpty then [⟨path, tag, .ClearChildren⟩]
      else removeTrailing path (enumFrom nc.length (oc.drop nc.length))
    else []
  let appends :=
    if oc.length < nc.length then [⟨path, tag, .AppendChildren (nc.drop oc.length)⟩]
    else []
  ⟨removes ++ appends, pairs⟩

/-- Finds the first yet-unmatched old child with the given key,
returning it together with the remaining pool. -/
def findKeyMatch (key : Option (List AttributeValue)) :
    List (Nat × Node) → Option ((Nat × Node) × List (Nat × Node))
  | [] => none
  | (i, o) :: rest =>
    if getKey o == key then some ((i, o), rest)
    else (findKeyMatch key rest).map (fun m => (m.1, (i, o) :: m.2))

/-- Modelled from the spec (§4.3): walk the new children and match
each against the first yet-unmatched old child with the same key. -/
def assignMatches : List (Nat × Node) → List Node → List (Option (Nat × Node) × Node)
  | _, [] => []
  | olds, n :: ns =>
    match findKeyMatch (getKey n) olds with
    | some m => (some m.1, n) :: assignMatches m.2 ns
    | none => (none, n) :: assignMatches olds ns

/-- Modelled from the spec (§4.3): a longest increasing subsequence of
the matched old indices, preferring the earliest candidate of maximal
length. -/
def pickLonger (best s : List Nat) : List Nat :=
  if best.length < s.length then s else best

def lis (l : List Nat) : List Nat :=
  (l.sublists.filter (fun s => decide (s.Chain' (· < ·)))).foldl pickLonger []

/-- Move patch for a matched-but-not-anchored child (§4.3): relative
to the nearest LIS-anchored neighbor. -/
def movePatchFor (path : TreePath) (tag : Option String) (lisIdx : List Nat) (i : Nat) :
    Patch :=
  match lisIdx.find? (fun j => i < j) with
  | some j => ⟨TreePath.traverse path j, none, .MoveBeforeNode [TreePath.traverse path i]⟩
  | none =>
    match (lisIdx.filter (fun j => j < i)).getLast? with
    | some j => ⟨TreePath.traverse path j, none, .MoveAfterNode [TreePath.traverse path i]⟩
    | none => ⟨path, tag, .MoveAfterNode [TreePath.traverse path i]⟩

/-- Insert patch for a fresh new child (§4.3): anchored to the nearest
surviving neighbor in the new order, falling back to an append. -/
def insertPatchFor (path : TreePath) (tag : Option String)
    (later earlier : List (Option (Nat × Node) × Node)) (child : Node) : Patch :=
  match later.findSome? (fun m => m.1) with
  | some x => ⟨TreePath.traverse path x.1, nodeTag x.2, .InsertBeforeNode [child]⟩
  | none =>
    match (earlier.filterMap (fun m => m.1)).getLast? with
    | some x => ⟨TreePath.traverse path x.1, nodeTag x.2, .InsertAfterNode [child]⟩
    | none => ⟨path, tag, .AppendChildren [child]⟩

/-- Insert patches for the fresh children of a match list. -/
def freshInserts (path : TreePath) (tag : Option String) :
    List (Option (Nat × Node) × Node) → List (Option (Nat × Node) × Node) → List Patch
  | _, [] => []
  | earlier, m :: rest =>
    match m.1 with
    | some _ => freshInserts path tag (earlier ++ [m]) rest
    | none => insertPatchFor path tag rest earlier m.2 :: freshInserts path tag earlier rest

/-- Modelled from the spec (§4.3): keyed children reconciliation.
Matched old indices, in new order, are reduced by a longest increasing
subsequence; matched nodes outside the LIS are moved, fresh nodes
inserted, unmatched old nodes removed; matched pairs are diffed
recursively. -/
def keyedPlan (oc nc : List Node) (path : TreePath) (tag : Option String) : ChildPlan :=
  let olds := enumFrom 0 oc
  let ms := assignMatches olds nc
  let matched := ms.filterMap (fun m => m.1)
  let matchedIdx := matched.map (fun x => x.1)
  let lisIdx := lis matchedIdx
  let removes := (olds.filter (fun x => !(matchedIdx.contains x.1))).map
    (fun x => (⟨TreePath.traverse path x.1, nodeTag x.2, .RemoveNode⟩ : Patch))
  let moves := (matched.filter (fun x => !(lisIdx.contains x.1))).map
    (fun x => movePatchFor path tag lisIdx x.1)
  let inserts := freshInserts path tag [] ms
  ⟨removes ++ moves ++ inserts,
    ms.filterMap (fun m => m.1.map (fun x => (x.1, x.2, m.2)))⟩

/-- Modelled from the spec (§4.2 step 5): keyed reconciliation is used
when any child on either side carries a `key`, positional diffing
otherwise. -/
def childPlan (oc nc : List Node) (path : TreePath) (tag : Option String) : ChildPlan :=
  if oc.any (fun c => (getKey c).isSome) || nc.any (fun c => (getKey c).isSome) then
    keyedPlan oc nc path tag
  else
    positionalPlan oc nc path tag

def findKeyMatch_mem {key : Option (List AttributeValue)} :
    ∀ {olds : List (Nat × Node)} {m : Nat × Node} {rem : List (Nat × Node)},
      findKeyMatch key olds = some (m, rem) → m ∈ olds ∧ ∀ x ∈ rem, x ∈ olds := by
  intro olds
  induction olds with
  | nil => intro m rem h; cases h
  | cons hd tl ih =>
    intro m rem h
    rcases hd with ⟨i, o⟩
    rw [findKeyMatch] at h
    by_cases hk : (getKey o == key) = true
    · rw [if_pos hk] at h
      injection h with h
      injection h with h1 h2
      subst h1; subst h2
      exact ⟨by simp, fun x hx => by simp [hx]⟩
    · rw [if_neg hk] at h
      rcases hfind : findKeyMatch key tl with _ | ⟨m2, rem2⟩
      · rw [hfind] at h; cases h
      · rw [hfind] at h
        simp only [Option.map_some', Option.some.injEq] at h
        injection h with h1 h2
        subst h1; subst h2
        rcases ih hfind with ⟨hm, hrem⟩
        refine ⟨by simp [hm], ?_⟩
        intro x hx
        rcases List.mem_cons.1 hx with hx1 | hx2
        · simp [hx1]
        · simp [hrem x hx2]

def assignMatches_some_mem :
    ∀ (nc : List Node) (olds : List (Nat × Node)) (y : Nat × Node) (n : Node),
      (some y, n) ∈ assignMatches olds nc → y ∈ olds := by
  intro nc
  induction nc with
  | nil => intro olds y n h; cases h
  | cons c cs ih =>
    intro olds y n h
    rw [assignMatches] at h
    rcases hfind : findKeyMatch (getKey c) olds with _ | ⟨m, rem⟩
    · rw [hfind] at h
      rcases List.mem_cons.1 h with h1 | h2
      · cases h1
      · exact ih olds y n h2
    · rw [hfind] at h
      rcases List.mem_cons.1 h with h1 | h2
      · injection h1 with h1a h1b
        injection h1a with h1a
        subst h1a
        exact (findKeyMatch_mem hfind).1
      · exact (findKeyMatch_mem hfind).2 y (ih rem y n h2)

def enumFrom_mem : ∀ (l : List Node) (i : Nat) (x : Nat × Node),
    x ∈ enumFrom i l → x.2 ∈ l := by
  intro l
  induction l with
  | nil => intro i x h; cases h
  | cons c cs ih =>
    intro i x h
    rw [enumFrom] at h
    rcases List.mem_cons.1 h with h1 | h2
    · subst h1; simp
    · simp [ih (i + 1) x h2]

def zipWithIndex_mem : ∀ (oc nc : List Node) (i : Nat) (x : Nat × Node × Node),
    x ∈ zipWithIndex oc nc i → x.2.1 ∈ oc := by
  intro oc
  induction oc with
  | nil => intro nc i x h; simp [zipWithIndex] at h
  | cons o os ih =>
    intro nc i x h
    cases nc with
    | nil => simp [zipWithIndex] at h
    | cons n ns =>
      rw [zipWithIndex] at h
      rcases List.mem_cons.1 h with h1 | h2
      · subst h1; simp
      · simp [ih ns (i + 1) x h2]

/-- Recursion pairs produced by a child plan take their old node from
the old children list. -/
def childPlan_pairs_mem {oc nc : List Node} {path : TreePath} {tag : Option String}
    {x : Nat × Node × Node} (h : x ∈ (childPlan oc nc path tag).pairs) : x.2.1 ∈ oc := by
  rw [childPlan] at h
  by_cases hkey : (oc.any (fun c => (getKey c).isSome) ||
      nc.any (fun c => (getKey c).isSome)) = true
  · rw [if_pos hkey] at h
    rw [keyedPlan] at h
    simp only [List.mem_filterMap] at h
    rcases h with ⟨m, hm, hmap⟩
    rcases hy : m.1 with _ | y
    · rw [hy] at hmap; cases hmap
    · rw [hy] at hmap
      simp only [Option.map_some', Option.some.injEq] at hmap
      have hmem : (some y, m.2) ∈ assignMatches (enumFrom 0 oc) nc := by
        rw [← hy]
        simpa using hm
      have := assignMatches_some_mem nc (enumFrom 0 oc) y m.2 hmem
      have h2 := enumFrom_mem oc 0 y this
      rw [← hmap]
      exact h2
  · rw [if_neg hkey] at h
    rw [positionalPlan] at h
    exact zipWithIndex_mem oc nc 0 x h

/-- Modelled from the spec (§4.2): the recursive diff step.  A node
requesting replacement (the `replace` attribute) or differing in kind
or tag is replaced wholesale; equal-tag elements diff their attributes
and children; leaves compare content; children diffing follows the
child plan (keyed or positional) and recurses into the paired
children. -/
def diff_recursive : Node → Node → TreePath → List Patch
  | .Element t1 n1 oa oc, .Element t2 n2 na nc, path =>
    if isReplaceSet (.Element t2 n2 na nc) || (t1 != t2) then
      [⟨path, some t1, .ReplaceNode [Node.Element t2 n2 na nc]⟩]
    else
      let plan := childPlan oc nc path (some t1)
      attrDiff oa na path (some t1) ++ plan.patches ++
        (plan.pairs.attach.map (fun pr =>
          diff_recursive pr.1.2.1 pr.1.2.2 (TreePath.traverse path pr.1.1))).flatten
  | .Leaf l1, .Leaf l2, path =>
    if l1 == l2 then [] else [⟨path, none, .ReplaceNode [Node.Leaf l2]⟩]
  | .Fragment oc, .Fragment nc, path =>
    let plan := childPlan oc nc path none
    plan.patches ++
      (plan.pairs.attach.map (fun pr =>
        diff_recursive pr.1.2.1 pr.1.2.2 (TreePath.traverse path pr.1.1))).flatten
  | old, new, path => [⟨path, nodeTag old, .ReplaceNode [new]⟩]
termination_by old _ _ => sizeOf old
decreasing_by
  all_goals
    have ho := childPlan_pairs_mem pr.2
    have := List.sizeOf_lt_of_mem ho
    first
    | simp only [Node.Element.sizeOf_spec]; omega
    | simp only [Node.Fragment.sizeOf_spec]; omega

/-- Modelled from the spec (§4.2): `diff(old, new)` starts the
recursive diff at the root path. -/
def diff (old new : Node) : List Patch :=
  diff_recursive old new TreePath.root

/-- No volatile reserved attribute (`value`, `checked`, `disabled`,
`open`) occurs anywhere in the tree. -/
def noVolatile : Node → Bool
  | .Element _ _ attrs cs =>
    attrs.all (fun a => !(volatileNames.contains a.name)) &&
      cs.attach.all (fun c => noVolatile c.1)
  | .Leaf _ => true
  | .Fragment cs => cs.attach.all (fun c => noVolatile c.1)
decreasing_by
  all_goals
    have := List.sizeOf_lt_of_mem c.2
    first
    | simp only [Node.Element.sizeOf_spec]; omega
    | simp only [Node.Fragment.sizeOf_spec]; omega

/-- The `replace` reserved attribute is not set anywhere in the tree. -/
def noReplaceSet : Node → Bool
  | .Element t ns attrs cs =>
    !(isReplaceSet (.Element t ns attrs cs)) &&
      cs.attach.all (fun c => noReplaceSet c.1)
  | .Leaf _ => true
  | .Fragment cs => cs.attach.all (fun c => noReplaceSet c.1)
decreasing_by
  all_goals
    have := List.sizeOf_lt_of_mem c.2
    first
    | simp only [Node.Element.sizeOf_spec]; omega
    | simp only [Node.Fragment.sizeOf_spec]; omega

/-! ### Templated view

Embedding of `TemplatedView` from
`src/crates/core/src/vdom/templated_view.rs`: a view node together
with lazily evaluated template and skip-diff closures. -/

structure TemplatedView where
  view : Node
  template : Unit → Node
  skip_diff : Unit → SkipDiff

/-- The `PartialEq` implementation for `TemplatedView`: compares only
the `view` field. -/
def TemplatedView.beq (a b : TemplatedView) : Bool :=
  Node.beq a.view b.view

/-! ### DOM layer

Embedding of `src/crates/core/src/dom/dom_patch.rs`.  The live-DOM
node type and its primitive mutation operations (`dom_node.rs`) are
not among the provided sources; they are modelled from the spec as a
tree of identified nodes, with operations addressing a node by its
identity. -/

inductive DomAttrValue where
  | FunctionCall (v : Value)
  | Simple (v : Value)
  | Style (entries : List (String × String))
  | EventListener (cb : Nat)
  | Empty
deriving DecidableEq

structure DomAttr where
  ns : Option String
  name : String
  value : List DomAttrValue
deriving DecidableEq

/-- Modelled from the spec: a live DOM node carries an identity, a
tag (for elements), a fragment marker, attributes and children.  The
Rust `DomNode` is a shared mutable handle; here the identity field
ties a handle to the node it denotes. -/
inductive DomNode where
  | mk (id : Nat) (tag : Option String) (fragment : Bool) (attrs : List DomAttr)
      (children : List DomNode)

def DomNode.id : DomNode → Nat
  | .mk i _ _ _ _ => i

def DomNode.tag : DomNode → Option String
  | .mk _ t _ _ _ => t

def DomNode.is_fragment : DomNode → Bool
  | .mk _ _ f _ _ => f

def DomNode.attrs : DomNode → List DomAttr
  | .mk _ _ _ a _ => a

def DomNode.children : DomNode → List DomNode
  | .mk _ _ _ _ cs => cs

def DomNode.withChildren : DomNode → List DomNode → DomNode
  | .mk i t f a _, cs => .mk i t f a cs

def DomNode.withAttrs : DomNode → List DomAttr → DomNode
  | .mk i t f _ cs, a => .mk i t f a cs

/-- `convert_attr_value` from the source: `Empty` converts to nothing,
every other value kind is carried over (event listeners are wrapped
into platform closures; the handle is preserved here). -/
def convert_attr_value : AttributeValue → Option DomAttrValue
  | .FunctionCall v => some (.FunctionCall v)
  | .Simple v => some (.Simple v)
  | .Style v => some (.Style v)
  | .EventListener cb => some (.EventListener cb)
  | .Empty => none

/-- `convert_attr` from the source: name and namespace are copied, the
values are converted, dropping the ones that convert to nothing. -/
def convert_attr (attr : Attribute) : DomAttr :=
  { ns := attr.ns
    name := attr.name
    value := attr.value.filterMap convert_attr_value }

inductive PatchVariant where
  | InsertBeforeNode (nodes : List DomNode)
  | InsertAfterNode (nodes : List DomNode)
  | AppendChildren (children : List DomNode)
  | AddAttributes (attrs : List DomAttr)
  | RemoveAttributes (attrs : List DomAttr)
  | ReplaceNode (replacement : List DomNode)
  | RemoveNode
  | ClearChildren
  | MoveBeforeNode (for_moving : List DomNode)
  | MoveAfterNode (for_moving : List DomNode)

structure DomPatch where
  patch_path : TreePath
  target_element : DomNode
  patch_variant : PatchVariant

/-- Sequencing of fallible per-element conversion, as Rust
`collect::<Result<_,_>>` over an iterator (a panic aborts the whole
conversion). -/
def mapMOpt (f : α → Option β) : List α → Option (List β)
  | [] => some []
  | a :: as =>
    match f a with
    | some b => (mapMOpt f as).map (fun bs => b :: bs)
    | none => none

/-- `convert_patch` from the source: creates the DOM payloads for each
patch variant; the `Move*` variants resolve their carried paths
through the pre-computed node lookup, failing (the source panics) when
a path is absent. -/
def convert_patch (create : Node → DomNode) (nodes_lookup : TreePath → Option DomNode)
    (target_element : DomNode) (patch : Patch) : Option DomPatch :=
  let patch_path := patch.patch_path
  match patch.patch_type with
  | .InsertBeforeNode nodes =>
    some ⟨patch_path, target_element, .InsertBeforeNode (nodes.map create)⟩
  | .InsertAfterNode nodes =>
    some ⟨patch_path, target_element, .InsertAfterNode (nodes.map create)⟩
  | .AddAttributes attrs =>
    some ⟨patch_path, target_element,
      .AddAttributes ((merge_attributes_of_same_name attrs).map convert_attr)⟩
  | .RemoveAttributes attrs =>
    some ⟨patch_path, target_element, .RemoveAttributes (attrs.map convert_attr)⟩
  | .ReplaceNode replacement =>
    some ⟨patch_path, target_element, .ReplaceNode (replacement.map create)⟩
  | .RemoveNode => some ⟨patch_path, target_element, .RemoveNode⟩
  | .ClearChildren => some ⟨patch_path, target_element, .ClearChildren⟩
  | .MoveBeforeNode nodes_path =>
    (mapMOpt nodes_lookup nodes_path).map
      (fun for_moving => ⟨patch_path, target_element, .MoveBeforeNode for_moving⟩)
  | .MoveAfterNode nodes_path =>
    (mapMOpt nodes_lookup nodes_path).map
      (fun for_moving => ⟨patch_path, target_element, .MoveAfterNode for_moving⟩)
  | .AppendChildren children =>
    some ⟨patch_path, target_element, .AppendChildren (children.map create)⟩

/-- The request list built by `convert_patches` for `find_all_nodes`:
every patch path paired with its expected tag, followed by every
auxiliary move-source path paired with no tag. -/
def nodes_to_find (patches : List Patch) : List (TreePath × Option String) :=
  patches.map (fun p => (p.path, p.tag)) ++
    ((patches.map Patch.node_paths).flatten).map (fun path => (path, none))

/-- `convert_patches` from the source: resolves every needed path in
one `find_all_nodes` call (the resolver itself lives in `dom_node.rs`
and is taken as a parameter), then converts each patch against the
lookup, asserting the expected tag.  The second component records the
argument of each `find_all_nodes` call.  A missing path or a tag
mismatch panics, modelled as `none`; otherwise the Rust function
returns `Ok`. -/
def convert_patches (create : Node → DomNode)
    (find_all_nodes : List (TreePath × Option String) → TreePath → Option DomNode)
    (patches : List Patch) :
    Option (Except String (List DomPatch)) × List (List (TreePath × Option String)) :=
  let to_find := nodes_to_find patches
  let nodes_lookup := find_all_nodes to_find
  let dom_patches := mapMOpt (fun patch =>
    match nodes_lookup patch.path with
    | some target_node =>
      match patch.tag, target_node.tag with
      | some patch_tag, some target_tag =>
        if patch_tag == target_tag then
          convert_patch create nodes_lookup target_node patch
        else none
      | _, _ => convert_patch create nodes_lookup target_node patch
    | none => none) patches
  (dom_patches.map (fun l => Except.ok l), [to_find])

/-- Whether the node or any of its descendants has the given identity. -/
def containsId : DomNode → Nat → Bool
  | .mk i _ _ _ cs, tid =>
    i == tid || cs.attach.any (fun c => containsId c.1 tid)
decreasing_by
  have := List.sizeOf_lt_of_mem c.2
  simp only [DomNode.mk.sizeOf_spec]
  omega

/-- Modelled from the spec: rewrite the live forest at the node with
the given identity, replacing the segment formed by that node and its
following siblings by `g target following`; fails when the identity is
absent. -/
def forestSplice (tid : Nat) (g : DomNode → List DomNode → List DomNode) :
    List DomNode → Option (List DomNode)
  | [] => none
  | c :: cs =>
    if c.id == tid then some (g c cs)
    else
      match forestSplice tid g c.children with
      | some cs2 => some (c.withChildren cs2 :: cs)
      | none =>
        match forestSplice tid g cs with
        | some cs2 => some (c :: cs2)
        | none => none
termination_by l => sizeOf l
decreasing_by
  · rcases c with ⟨i, t, f, a, kids⟩
    simp only [DomNode.children, List.cons.sizeOf_spec, DomNode.mk.sizeOf_spec]
    omega
  · simp only [List.cons.sizeOf_spec]
    omega

/-- Modelled from the spec: transform the node with the given identity
in place, failing when it is absent or the transform fails. -/
def forestEditNode (tid : Nat) (h : DomNode → Option DomNode) :
    List DomNode → Option (List DomNode)
  | [] => none
  | c :: cs =>
    if c.id == tid then (h c).map (fun c2 => c2 :: cs)
    else
      match forestEditNode tid h c.children with
      | some cs2 => some (c.withChildren cs2 :: cs)
      | none =>
        match forestEditNode tid h cs with
        | some cs2 => some (c :: cs2)
        | none => none
termination_by l => sizeOf l
decreasing_by
  · rcases c with ⟨i, t, f, a, kids⟩
    simp only [DomNode.children, List.cons.sizeOf_spec, DomNode.mk.sizeOf_spec]
    omega
  · simp only [List.cons.sizeOf_spec]
    omega

/-- Modelled from the spec: the parent of the node with the given
identity, when it exists in the forest (roots have no parent). -/
def findParent (tid : Nat) : List DomNode → Option DomNode
  | [] => none
  | c :: cs =>
    if c.children.any (fun k => k.id == tid) then some c
    else
      match findParent tid c.children with
      | some p => some p
      | none => findParent tid cs
termination_by l => sizeOf l
decreasing_by
  · rcases c with ⟨i, t, f, a, kids⟩
    simp only [DomNode.children, List.cons.sizeOf_spec, DomNode.mk.sizeOf_spec]
    omega
  · simp only [List.cons.sizeOf_spec]
    omega

/-- Modelled from the spec: `DomNode::insert_before`, inserting a node
as the immediately preceding sibling of the target. -/
def insertBeforeOp (m : List DomNode) (tid : Nat) (n : DomNode) : Option (List DomNode) :=
  forestSplice tid (fun c cs => n :: c :: cs) m

/-- Modelled from the spec: `DomNode::insert_after`, inserting a node
as the immediately following sibling of the target. -/
def insertAfterOp (m : List DomNode) (tid : Nat) (n : DomNode) : Option (List DomNode) :=
  forestSplice tid (fun c cs => c :: n :: cs) m

/-- Modelled from the spec: `DomNode::append_child`. -/
def appendChildOp (m : List DomNode) (tid : Nat) (n : DomNode) : Option (List DomNode) :=
  forestSplice tid (fun c cs => c.withChildren (c.children ++ [n]) :: cs) m

/-- Modelled from the spec: `DomNode::replace_node`. -/
def replaceNodeOp (m : List DomNode) (tid : Nat) (n : DomNode) : Option (List DomNode) :=
  forestSplice tid (fun _ cs => n :: cs) m

/-- Modelled from the spec: `DomNode::remove_node`. -/
def removeNodeOp (m : List DomNode) (tid : Nat) : Option (List DomNode) :=
  forestSplice tid (fun _ cs => cs) m

/-- Modelled from the spec: `DomNode::clear_children`. -/
def clearChildrenOp (m : List DomNode) (tid : Nat) : Option (List DomNode) :=
  forestSplice tid (fun c cs => c.withChildren [] :: cs) m

/-- Modelled from the spec: `parent.remove_child(node)` removes the
node with the given identity from the parent's own children. -/
def removeChildOp (m : List DomNode) (parentId childId : Nat) : Option (List DomNode) :=
  forestSplice parentId
    (fun c cs => c.withChildren (c.children.filter (fun k => !(k.id == childId))) :: cs) m

/-- Modelled from the spec: `set_dom_attrs` upserts each attribute by
name. -/
def upsertAttr (l : List DomAttr) (a : DomAttr) : List DomAttr :=
  if l.any (fun b => b.name == a.name) then
    l.map (fun b => if b.name == a.name then a else b)
  else l ++ [a]

def setDomAttrsOp (m : List DomNode) (tid : Nat) (attrs : List DomAttr) :
    Option (List DomNode) :=
  forestSplice tid (fun c cs => c.withAttrs (c.attrs.foldl upsertAttr attrs) :: cs) m

/-- Modelled from the spec: removing one attribute value from the
target node, per value kind as in the source `RemoveAttributes` arm:
simple and style values remove the named attribute, an event listener
requires an element and removes the named listener, a function call
named `inner_html` clears the rendered content, empty values are
ignored. -/
def removeAttrValueStep (attr : DomAttr) (c : DomNode) (v : DomAttrValue) :
    Option DomNode :=
  match v with
  | .Simple _ => some (c.withAttrs (c.attrs.filter (fun b => !(b.name == attr.name))))
  | .Style _ => some (c.withAttrs (c.attrs.filter (fun b => !(b.name == attr.name))))
  | .EventListener _ =>
    if c.is_fragment then none
    else some (c.withAttrs (c.attrs.filter (fun b => !(b.name == attr.name))))
  | .FunctionCall _ =>
    if c.is_fragment then none
    else if attr.name == "inner_html" then some (c.withChildren []) else some c
  | .Empty => some c

def removeAttrStep (c : DomNode) (attr : DomAttr) : Option DomNode :=
  attr.value.foldlM (removeAttrValueStep attr) c

def removeDomAttrsOp (m : List DomNode) (tid : Nat) (attrs : List DomAttr) :
    Option (List DomNode) :=
  forestEditNode tid (fun c => attrs.foldlM removeAttrStep c) m

/-- Sequential application of one per-node operation to a list of
nodes, in order, failing as soon as one application fails. -/
def applyAll (f : List DomNode → DomNode → Option (List DomNode)) :
    List DomNode → List DomNode → Option (List DomNode)
  | m, [] => some m
  | m, n :: ns =>
    match f m n with
    | some m2 => applyAll f m2 ns
    | none => none

/-- The live document: the mounted forest of root nodes. -/
structure DomState where
  mount : List DomNode

/-- `apply_dom_patch` from the source: applies one converted patch to
the live document, returning the new root node when the patch replaced
the root (a `ReplaceNode` at the empty path); panics and propagated
platform errors are modelled as `none`. -/
def apply_dom_patch (st : DomState) (dom_patch : DomPatch) :
    Option (Option DomNode × DomState) :=
  let patch_path := dom_patch.patch_path
  let target := dom_patch.target_element
  match dom_patch.patch_variant with
  | .InsertBeforeNode nodes =>
    (applyAll (fun m n => insertBeforeOp m target.id n) st.mount nodes).map
      (fun m => (none, ⟨m⟩))
  | .InsertAfterNode nodes =>
    (applyAll (fun m n => insertAfterOp m target.id n) st.mount nodes.reverse).map
      (fun m => (none, ⟨m⟩))
  | .AppendChildren children =>
    (applyAll (fun m n => appendChildOp m target.id n) st.mount children).map
      (fun m => (none, ⟨m⟩))
  | .AddAttributes attrs =>
    (setDomAttrsOp st.mount target.id attrs).map (fun m => (none, ⟨m⟩))
  | .RemoveAttributes attrs =>
    (removeDomAttrsOp st.mount target.id attrs).map (fun m => (none, ⟨m⟩))
  | .ReplaceNode replacement =>
    match replacement with
    | [] => none
    | first :: rest =>
      if target.is_fragment then
        if patch_path.isEmpty then
          (applyAll (fun m n => some (m ++ [n])) (st.mount ++ [first]) rest).map
            (fun m => (some first, ⟨m⟩))
        else none
      else
        match replaceNodeOp st.mount target.id first with
        | none => none
        | some m =>
          match applyAll (fun m2 n => insertAfterOp m2 first.id n) m rest.reverse with
          | none => none
          | some m2 =>
            some (if patch_path.isEmpty then some first else none, ⟨m2⟩)
  | .RemoveNode =>
    (removeNodeOp st.mount target.id).map (fun m => (none, ⟨m⟩))
  | .ClearChildren =>
    (clearChildrenOp st.mount target.id).map (fun m => (none, ⟨m⟩))
  | .MoveBeforeNode for_moving =>
    match findParent target.id st.mount with
    | some parent =>
      (applyAll (fun m n =>
        match removeChildOp m parent.id n.id with
        | some m2 => insertBeforeOp m2 target.id n
        | none => none) st.mount for_moving).map (fun m => (none, ⟨m⟩))
    | none => none
  | .MoveAfterNode for_moving =>
    match findParent target.id st.mount with
    | some parent =>
      (applyAll (fun m n =>
        match removeChildOp m parent.id n.id with
        | some m2 => insertAfterOp m2 target.id n
        | none => none) st.mount for_moving).map (fun m => (none, ⟨m⟩))
    | none => some (none, st)

/-- `apply_dom_patches` from the source: applies the patches strictly
in order; the returned root is the one produced by the last
root-replacing patch, when any. -/
def apply_dom_patches (st : DomState) : List DomPatch → Option (Option DomNode × DomState)
  | [] => some (none, st)
  | p :: ps =>
    match apply_dom_patch st p with
    | none => none
    | some (r0, st0) =>
      match apply_dom_patches st0 ps with
      | none => none
      | some (r1, st1) => some ((if r1.isSome then r1 else r0), st1)

/-- The root replacement a patch would report: the first replacement
node of a `ReplaceNode` addressed at the root path. -/
def rootReplacementOf (p : DomPatch) : Option DomNode :=
  match p.patch_variant with
  | .ReplaceNode replacement =>
    if p.patch_path.isEmpty then replacement.head? else none
  | _ => none

/-- Whether a patch is a `ReplaceNode`. -/
def isReplacePatch (p : DomPatch) : Bool :=
  match p.patch_variant with
  | .ReplaceNode _ => true
  | _ => false

/-! ### Theorems -/
/-! ### Helper lemmas on paths -/

theorem remainderAfter_eq_some {xs p q : List Nat} :
    remainderAfter xs p = some q ↔ p = xs ++ q := by
  induction xs generalizing p with
  | nil => simp [remainderAfter]
  | cons a as ih =>
    cases p with
    | nil => simp [remainderAfter]
    | cons b bs =>
      by_cases hab : a = b
      · subst hab
        simp [remainderAfter, ih]
      · simp only [remainderAfter, if_neg hab, List.cons_append]
        exact iff_of_false (by simp)
          (by intro h; injection h with h1 _; exact hab h1.symm)

theorem pathLt_append_cons (pre : List Nat) (k : Nat) (rest : List Nat) :
    pathLt pre (pre ++ k :: rest) := by
  induction pre with
  | nil => exact List.Lex.nil
  | cons a tl ih => exact List.Lex.cons ih

theorem pathLt_of_head_lt (pre : List Nat) {a b : Nat} (h : a < b) (ta tb : List Nat) :
    pathLt (pre ++ a :: ta) (pre ++ b :: tb) := by
  induction pre with
  | nil => exact List.Lex.rel h
  | cons x tl ih => exact List.Lex.cons ih

/-! ### Membership of traversal results -/

/-- The nodes reported by `traverse_recursive` from a subtree rooted at
`cur` are exactly the false-decision nodes of that subtree. -/
theorem SkipDiff.mem_traverse_recursive (s : SkipDiff) :
    ∀ cur p, p ∈ SkipDiff.traverse_recursive s cur ↔
      ∃ q s2, p = cur ++ q ∧ SkipDiff.nodeAt s q = some s2 ∧ s2.expr () = false := by
  induction s using SkipDiff.strongInd with
  | _ e cs ih =>
  have hlist : ∀ (es : List SkipDiff), (∀ c ∈ es, ∀ cur p,
      p ∈ SkipDiff.traverse_recursive c cur ↔
        ∃ q s2, p = cur ++ q ∧ SkipDiff.nodeAt c q = some s2 ∧ s2.expr () = false) →
      ∀ cur i p, p ∈ SkipDiff.traverse_list_from es cur i ↔
        ∃ j s1, es[j]? = some s1 ∧ ∃ q s2,
          p = cur ++ (i + j) :: q ∧ SkipDiff.nodeAt s1 q = some s2 ∧ s2.expr () = false := by
    intro es
    induction es with
    | nil => intro _ cur i p; simp [SkipDiff.traverse_list_from]
    | cons c es ihes =>
      intro hmem cur i p
      have hc := hmem c (by simp)
      have hes := ihes (fun d hd => hmem d (by simp [hd]))
      simp only [SkipDiff.traverse_list_from, List.mem_append]
      rw [hc, hes]
      constructor
      · rintro (⟨q, s2, hp, hq, hv⟩ | ⟨j, s1, hj, q, s2, hp, hq, hv⟩)
        · exact ⟨0, c, by simp, q, s2, by simpa [TreePath.traverse] using hp, hq, hv⟩
        · refine ⟨j + 1, s1, by simpa using hj, q, s2, ?_, hq, hv⟩
          rw [hp]; congr 2; omega
      · rintro ⟨j, s1, hj, q, s2, hp, hq, hv⟩
        cases j with
        | zero =>
          left
          simp only [List.getElem?_cons_zero, Option.some.injEq] at hj
          subst hj
          exact ⟨q, s2, by simpa [TreePath.traverse] using hp, hq, hv⟩
        | succ j =>
          right
          refine ⟨j, s1, by simpa using hj, q, s2, ?_, hq, hv⟩
          rw [hp]; congr 2; omega
  intro cur p
  simp only [SkipDiff.traverse_recursive, List.mem_append]
  rw [hlist cs ih cur 0 p]
  constructor
  · rintro (hif | ⟨j, s1, hj, q, s2, hp, hq, hv⟩)
    · by_cases he : e () <;> simp [he] at hif
      exact ⟨[], .mk e cs, by simp [hif], by simp [SkipDiff.nodeAt], by simp [SkipDiff.expr, he]⟩
    · exact ⟨j :: q, s2, by simpa using hp, by simp [SkipDiff.nodeAt, hj, hq], hv⟩
  · rintro ⟨q, s2, hp, hq, hv⟩
    cases q with
    | nil =>
      left
      simp only [SkipDiff.nodeAt, Option.some.injEq] at hq
      subst hq
      simp only [SkipDiff.expr] at hv
      simp [hv, hp]
    | cons j rest =>
      right
      simp only [SkipDiff.nodeAt] at hq
      cases hget : cs[j]? with
      | none => rw [hget] at hq; exact absurd hq (by simp)
      | some c =>
        rw [hget] at hq
        exact ⟨j, c, hget, rest, s2, by simpa using hp, hq, hv⟩

/-- Standalone version of the membership description for
`traverse_list_from`. -/
theorem SkipDiff.mem_traverse_list_from (es : List SkipDiff) :
    ∀ cur i p, p ∈ SkipDiff.traverse_list_from es cur i ↔
      ∃ j s1, es[j]? = some s1 ∧ ∃ q s2,
        p = cur ++ (i + j) :: q ∧ SkipDiff.nodeAt s1 q = some s2 ∧ s2.expr () = false := by
  induction es with
  | nil => intro cur i p; simp [SkipDiff.traverse_list_from]
  | cons c es ihes =>
    intro cur i p
    simp only [SkipDiff.traverse_list_from, List.mem_append]
    rw [SkipDiff.mem_traverse_recursive c, ihes]
    constructor
    · rintro (⟨q, s2, hp, hq, hv⟩ | ⟨j, s1, hj, q, s2, hp, hq, hv⟩)
      · exact ⟨0, c, by simp, q, s2, by simpa [TreePath.traverse] using hp, hq, hv⟩
      · refine ⟨j + 1, s1, by simpa using hj, q, s2, ?_, hq, hv⟩
        rw [hp]; congr 2; omega
    · rintro ⟨j, s1, hj, q, s2, hp, hq, hv⟩
      cases j with
      | zero =>
        left
        simp only [List.getElem?_cons_zero, Option.some.injEq] at hj
        subst hj
        exact ⟨q, s2, by simpa [TreePath.traverse] using hp, hq, hv⟩
      | succ j =>
        right
        refine ⟨j, s1, by simpa using hj, q, s2, ?_, hq, hv⟩
        rw [hp]; congr 2; omega

/-- Shape of results of `traverse_recursive`: everything extends the
current path. -/
theorem SkipDiff.shape_traverse_recursive {s : SkipDiff} {cur p : TreePath}
    (h : p ∈ SkipDiff.traverse_recursive s cur) : ∃ q, p = cur ++ q := by
  rcases (SkipDiff.mem_traverse_recursive s cur p).1 h with ⟨q, s2, hp, _, _⟩
  exact ⟨q, hp⟩

/-- Shape of results of `traverse_list_from`: everything extends the
current path by an index at least the enumeration start. -/
theorem SkipDiff.shape_traverse_list_from {es : List SkipDiff} {cur : TreePath}
    {i : Nat} {p : TreePath} (h : p ∈ SkipDiff.traverse_list_from es cur i) :
    ∃ k q, i ≤ k ∧ p = cur ++ k :: q := by
  rcases (SkipDiff.mem_traverse_list_from es cur i p).1 h with ⟨j, s1, _, q, s2, hp, _, _⟩
  exact ⟨i + j, q, by omega, hp⟩

/-- The traversal visits nodes in tree order: results of
`traverse_recursive` are strictly increasing in `pathLt`. -/
theorem SkipDiff.pairwise_traverse_recursive (s : SkipDiff) :
    ∀ cur, (SkipDiff.traverse_recursive s cur).Pairwise pathLt := by
  induction s using SkipDiff.strongInd with
  | _ e cs ih =>
  have hlist : ∀ (es : List SkipDiff),
      (∀ c ∈ es, ∀ cur, (SkipDiff.traverse_recursive c cur).Pairwise pathLt) →
      ∀ cur i, (SkipDiff.traverse_list_from es cur i).Pairwise pathLt := by
    intro es
    induction es with
    | nil => intro _ cur i; simp [SkipDiff.traverse_list_from]
    | cons c es ihes =>
      intro hpw cur i
      simp only [SkipDiff.traverse_list_from]
      rw [List.pairwise_append]
      refine ⟨hpw c (by simp) _, ihes (fun d hd => hpw d (by simp [hd])) cur (i + 1), ?_⟩
      intro a ha b hb
      rcases SkipDiff.shape_traverse_recursive ha with ⟨qa, rfl⟩
      rcases SkipDiff.shape_traverse_list_from hb with ⟨k, qb, hk, rfl⟩
      rw [TreePath.traverse, List.append_assoc]
      exact pathLt_of_head_lt cur (by omega) qa qb
  intro cur
  simp only [SkipDiff.traverse_recursive]
  rw [List.pairwise_append]
  refine ⟨?_, hlist cs ih cur 0, ?_⟩
  · by_cases he : e () <;> simp [he]
  · intro a ha b hb
    have ha2 : a = cur := by
      by_cases he : e () <;> simp [he] at ha
      exact ha
    rcases SkipDiff.shape_traverse_list_from hb with ⟨k, qb, _, rfl⟩
    rw [ha2]
    exact pathLt_append_cons cur k qb

theorem remainderAfter_append (xs ys p : List Nat) :
    remainderAfter (xs ++ ys) p = (remainderAfter xs p).bind (remainderAfter ys) := by
  induction xs generalizing p with
  | nil => simp [remainderAfter]
  | cons a as ih =>
    cases p with
    | nil => simp [remainderAfter]
    | cons b bs =>
      by_cases hab : a = b
      · subst hab; simp [remainderAfter, ih]
      · simp [remainderAfter, hab]

/-- Count of one path in the evaluation trace of a subtree: 1 when the
path addresses a node of the subtree, 0 otherwise. -/
theorem SkipDiff.count_evalTrace (s : SkipDiff) :
    ∀ cur p, (SkipDiff.evalTrace s cur).count p =
      (match remainderAfter cur p with
       | some q => if (SkipDiff.nodeAt s q).isSome then 1 else 0
       | none => 0) := by
  induction s using SkipDiff.strongInd with
  | _ e cs ih =>
  have hlist : ∀ (es : List SkipDiff),
      (∀ c ∈ es, ∀ cur p, (SkipDiff.evalTrace c cur).count p =
        (match remainderAfter cur p with
         | some q => if (SkipDiff.nodeAt c q).isSome then 1 else 0
         | none => 0)) →
      ∀ cur i p, (SkipDiff.evalTraceList es cur i).count p =
        (match remainderAfter cur p with
         | some (k :: rest) =>
           if i ≤ k then
             (match es[k - i]? with
              | some s1 => if (SkipDiff.nodeAt s1 rest).isSome then 1 else 0
              | none => 0)
           else 0
         | _ => 0) := by
    intro es
    induction es with
    | nil =>
      intro _ cur i p
      rcases hrem : remainderAfter cur p with _ | (_ | ⟨k, rest⟩) <;>
        simp [SkipDiff.evalTraceList]
    | cons c es ihes =>
      intro hcnt cur i p
      have hc := hcnt c (by simp)
      have hes := ihes (fun d hd => hcnt d (by simp [hd])) cur (i + 1) p
      simp only [SkipDiff.evalTraceList, List.count_append]
      rw [hc, hes]
      rw [TreePath.traverse, remainderAfter_append]
      rcases hrem : remainderAfter cur p with _ | q
      · simp
      · cases q with
        | nil =>
          simp [remainderAfter]
        | cons k rest =>
          simp only [Option.some_bind]
          by_cases hik : i = k
          · subst hik
            have h1 : remainderAfter [i] (i :: rest) = some rest := by
              simp [remainderAfter]
            have h2 : ¬ i + 1 ≤ i := by omega
            rw [h1]
            simp [h2, Nat.sub_self]
          · have h1 : remainderAfter [i] (k :: rest) = none := by
              simp [remainderAfter, hik]
            rw [h1]
            by_cases hlt : i + 1 ≤ k
            · have h2 : i ≤ k := by omega
              have hk : k - i = (k - (i + 1)) + 1 := by omega
              simp [hlt, h2, hk]
            · have h3 : ¬ i ≤ k := by omega
              simp [hlt, h3]
  intro cur p
  simp only [SkipDiff.evalTrace, List.count_cons]
  rw [hlist cs ih cur 0 p]
  rcases hrem : remainderAfter cur p with _ | q
  · have hne : ¬ (cur == p) := by
      intro hcp
      rw [show cur = p from by simpa using hcp] at hrem
      rw [show remainderAfter p p = some [] from remainderAfter_eq_some.2 (by simp)] at hrem
      cases hrem
    simp [hne]
  · cases q with
    | nil =>
      have hp : p = cur := by simpa using remainderAfter_eq_some.1 hrem
      subst hp
      simp [SkipDiff.nodeAt]
    | cons k rest =>
      have hp : p = cur ++ k :: rest := remainderAfter_eq_some.1 hrem
      have hne : ¬ (cur == p) := by
        intro hcp
        have : cur = p := by simpa using hcp
        rw [← this] at hp
        have := congrArg List.length hp
        simp at this
      simp only [hne, if_false, Nat.zero_le, if_true, Nat.sub_zero, cond_false]
      have : SkipDiff.nodeAt (.mk e cs) (k :: rest) =
          (match cs[k]? with
           | some c => SkipDiff.nodeAt c rest
           | none => none) := rfl
      rw [this]
      rcases hget : cs[k]? with _ | c <;> simp

/-- Standalone count description for `evalTraceList`. -/
theorem SkipDiff.count_evalTraceList (es : List SkipDiff) :
    ∀ cur i p, (SkipDiff.evalTraceList es cur i).count p =
      (match remainderAfter cur p with
       | some (k :: rest) =>
         if i ≤ k then
           (match es[k - i]? with
            | some s1 => if (SkipDiff.nodeAt s1 rest).isSome then 1 else 0
            | none => 0)
         else 0
       | _ => 0) := by
  induction es with
  | nil =>
    intro cur i p
    rcases hrem : remainderAfter cur p with _ | (_ | ⟨k, rest⟩) <;>
      simp [SkipDiff.evalTraceList]
  | cons c es ihes =>
    intro cur i p
    have hc := SkipDiff.count_evalTrace c (TreePath.traverse cur i) p
    have hes := ihes cur (i + 1) p
    simp only [SkipDiff.evalTraceList, List.count_append]
    rw [hc, hes]
    rw [TreePath.traverse, remainderAfter_append]
    rcases hrem : remainderAfter cur p with _ | q
    · simp
    · cases q with
      | nil =>
        simp [remainderAfter]
      | cons k rest =>
        simp only [Option.some_bind]
        by_cases hik : i = k
        · subst hik
          have h1 : remainderAfter [i] (i :: rest) = some rest := by
            simp [remainderAfter]
          have h2 : ¬ i + 1 ≤ i := by omega
          rw [h1]
          simp [h2, Nat.sub_self]
        · have h1 : remainderAfter [i] (k :: rest) = none := by
            simp [remainderAfter, hik]
          rw [h1]
          by_cases hlt : i + 1 ≤ k
          · have h2 : i ≤ k := by omega
            have hk : k - i = (k - (i + 1)) + 1 := by omega
            simp [hlt, h2, hk]
          · have h3 : ¬ i ≤ k := by omega
            simp [hlt, h3]

/-- Standalone pairwise (tree-order) description for
`traverse_list_from`. -/
theorem SkipDiff.pairwise_traverse_list_from (es : List SkipDiff) :
    ∀ cur i, (SkipDiff.traverse_list_from es cur i).Pairwise pathLt := by
  induction es with
  | nil => intro cur i; simp [SkipDiff.traverse_list_from]
  | cons c es ihes =>
    intro cur i
    simp only [SkipDiff.traverse_list_from]
    rw [List.pairwise_append]
    refine ⟨SkipDiff.pairwise_traverse_recursive c _, ihes cur (i + 1), ?_⟩
    intro a ha b hb
    rcases SkipDiff.shape_traverse_recursive ha with ⟨qa, rfl⟩
    rcases SkipDiff.shape_traverse_list_from hb with ⟨k, qb, hk, rfl⟩
    rw [TreePath.traverse, List.append_assoc]
    exact pathLt_of_head_lt cur (by omega) qa qb

theorem SkipDiff.traverse_nil :
    SkipDiff.traverse [] = SkipDiff.traverse_list [] TreePath.root := rfl

theorem SkipDiff.traverse_single (e : SkipDiff) :
    SkipDiff.traverse [e] = SkipDiff.traverse_recursive e TreePath.root := rfl

theorem SkipDiff.traverse_multi (a b : SkipDiff) (es : List SkipDiff) :
    SkipDiff.traverse (a :: b :: es) =
      SkipDiff.traverse_list (a :: b :: es) TreePath.root := rfl

theorem SkipDiff.nodeAtEvals_nil (p : TreePath) :
    SkipDiff.nodeAtEvals [] p = SkipDiff.nodeAtForest [] p := rfl

theorem SkipDiff.nodeAtEvals_single (s : SkipDiff) (p : TreePath) :
    SkipDiff.nodeAtEvals [s] p = SkipDiff.nodeAt s p := rfl

theorem SkipDiff.nodeAtEvals_multi (a b : SkipDiff) (es : List SkipDiff) (p : TreePath) :
    SkipDiff.nodeAtEvals (a :: b :: es) p = SkipDiff.nodeAtForest (a :: b :: es) p := rfl

theorem SkipDiff.evalTraceTop_nil :
    SkipDiff.evalTraceTop [] = SkipDiff.evalTraceList [] TreePath.root 0 := rfl

theorem SkipDiff.evalTraceTop_single (e : SkipDiff) :
    SkipDiff.evalTraceTop [e] = SkipDiff.evalTrace e TreePath.root := rfl

theorem SkipDiff.evalTraceTop_multi (a b : SkipDiff) (es : List SkipDiff) :
    SkipDiff.evalTraceTop (a :: b :: es) =
      SkipDiff.evalTraceList (a :: b :: es) TreePath.root 0 := rfl

/-- C1: `SkipDiff::traverse` returns exactly the paths of the nodes
whose decision evaluates to false, in tree order (parent before
children, siblings left to right), each decision being evaluated
exactly once per traversal; and a single root with a true flag and no
children yields the empty list. -/
theorem skipdiff_traverse_spec (evals : List SkipDiff) :
    (∀ p, p ∈ SkipDiff.traverse evals ↔
        ∃ s, SkipDiff.nodeAtEvals evals p = some s ∧ s.expr () = false) ∧
    (SkipDiff.traverse evals).Pairwise pathLt ∧
    (∀ p, (SkipDiff.evalTraceTop evals).count p =
        if (SkipDiff.nodeAtEvals evals p).isSome then 1 else 0) ∧
    SkipDiff.traverse [SkipDiff.new true []] = [] := by
  have hlast : SkipDiff.traverse [SkipDiff.new true []] = [] := rfl
  rcases evals with _ | ⟨a, _ | ⟨b, es⟩⟩
  · refine ⟨?_, ?_, ?_, hlast⟩
    · intro p
      rw [SkipDiff.traverse_nil, SkipDiff.nodeAtEvals_nil]
      cases p <;> simp [SkipDiff.traverse_list, SkipDiff.traverse_list_from,
        SkipDiff.nodeAtForest]
    · rw [SkipDiff.traverse_nil]
      simp [SkipDiff.traverse_list, SkipDiff.traverse_list_from]
    · intro p
      rw [SkipDiff.evalTraceTop_nil, SkipDiff.nodeAtEvals_nil]
      cases p <;> simp [SkipDiff.evalTraceList, SkipDiff.nodeAtForest]
  · refine ⟨?_, ?_, ?_, hlast⟩
    · intro p
      rw [SkipDiff.traverse_single, SkipDiff.nodeAtEvals_single]
      rw [SkipDiff.mem_traverse_recursive a TreePath.root p]
      constructor
      · rintro ⟨q, s2, hp, hq, hv⟩
        exact ⟨s2, by simpa [TreePath.root, hp] using hq, hv⟩
      · rintro ⟨s2, hq, hv⟩
        exact ⟨p, s2, by simp [TreePath.root], hq, hv⟩
    · rw [SkipDiff.traverse_single]
      exact SkipDiff.pairwise_traverse_recursive a TreePath.root
    · intro p
      rw [SkipDiff.evalTraceTop_single, SkipDiff.nodeAtEvals_single]
      rw [SkipDiff.count_evalTrace a TreePath.root p]
      have : remainderAfter TreePath.root p = some p := rfl
      rw [this]
  · refine ⟨?_, ?_, ?_, hlast⟩
    · intro p
      rw [SkipDiff.traverse_multi, SkipDiff.nodeAtEvals_multi]
      rw [SkipDiff.traverse_list, SkipDiff.mem_traverse_list_from _ TreePath.root 0 p]
      cases p with
      | nil =>
        simp [SkipDiff.nodeAtForest, TreePath.root]
      | cons i rest =>
        constructor
        · rintro ⟨j, s1, hj, q, s2, hp, hq, hv⟩
          have hji : j = i ∧ q = rest := by
            rw [TreePath.root] at hp
            simp at hp
            exact ⟨by omega, hp.2.symm⟩
          rcases hji with ⟨rfl, rfl⟩
          refine ⟨s2, ?_, hv⟩
          simp [SkipDiff.nodeAtForest, hj, hq]
        · rintro ⟨s2, hs2, hv⟩
          simp only [SkipDiff.nodeAtForest, Option.bind_eq_some] at hs2
          rcases hs2 with ⟨s1, hj, hq⟩
          exact ⟨i, s1, hj, rest, s2, by simp [TreePath.root], hq, hv⟩
    · rw [SkipDiff.traverse_multi, SkipDiff.traverse_list]
      exact SkipDiff.pairwise_traverse_list_from _ TreePath.root 0
    · intro p
      rw [SkipDiff.evalTraceTop_multi, SkipDiff.nodeAtEvals_multi]
      rw [SkipDiff.count_evalTraceList _ TreePath.root 0 p]
      have hra : remainderAfter TreePath.root p = some p := rfl
      rw [hra]
      cases p with
      | nil => simp [SkipDiff.nodeAtForest]
      | cons k rest =>
        simp only [SkipDiff.nodeAtForest, Nat.zero_le, if_true, Nat.sub_zero]
        have hmatch : ∀ (o : Option SkipDiff),
            (match o with
             | some s1 => if (SkipDiff.nodeAt s1 rest).isSome then 1 else 0
             | none => 0) =
            if ((o.bind fun s => SkipDiff.nodeAt s rest)).isSome then 1 else 0 := by
          intro o; cases o <;> simp
        exact hmatch _

theorem SkipDiff.is_skippable_unfold (e : Unit → Bool) (cs : List SkipDiff) :
    SkipDiff.is_skippable_recursive (.mk e cs) = true ↔
      (e () = true ∧ ∀ c ∈ cs, SkipDiff.is_skippable_recursive c = true) := by
  rw [SkipDiff.is_skippable_recursive]
  simp [List.all_eq_true]

/-- C2: `is_skippable_recursive` holds exactly when the node's own
decision is true and every child is recursively skippable;
equivalently, exactly when every node of the subtree (the node and all
its descendants) has a true decision. -/
theorem skipdiff_is_skippable_spec (s : SkipDiff) :
    (SkipDiff.is_skippable_recursive s = true ↔
      (s.expr () = true ∧ ∀ c ∈ s.children, SkipDiff.is_skippable_recursive c = true)) ∧
    (SkipDiff.is_skippable_recursive s = true ↔
      ∀ p s2, SkipDiff.nodeAt s p = some s2 → s2.expr () = true) := by
  have main : ∀ t, SkipDiff.is_skippable_recursive t = true ↔
      ∀ p s2, SkipDiff.nodeAt t p = some s2 → s2.expr () = true := by
    intro t
    induction t using SkipDiff.strongInd with
    | _ e cs ih =>
    rw [SkipDiff.is_skippable_unfold]
    constructor
    · rintro ⟨he, hall⟩ p s2 hnode
      cases p with
      | nil =>
        simp only [SkipDiff.nodeAt, Option.some.injEq] at hnode
        subst hnode
        simpa [SkipDiff.expr] using he
      | cons j rest =>
        simp only [SkipDiff.nodeAt] at hnode
        rcases hget : cs[j]? with _ | c
        · rw [hget] at hnode; exact absurd hnode (by simp)
        · rw [hget] at hnode
          have hc : c ∈ cs := List.getElem?_mem hget
          exact ((ih c hc).1 (hall c hc)) rest s2 hnode
    · intro h
      refine ⟨by simpa [SkipDiff.expr] using h [] (.mk e cs) rfl, ?_⟩
      intro c hc
      rcases List.getElem?_of_mem hc with ⟨j, hj⟩
      refine (ih c hc).2 ?_
      intro p s2 hp
      refine h (j :: p) s2 ?_
      simp [SkipDiff.nodeAt, hj, hp]
  constructor
  · cases s with
    | mk e cs =>
      rw [SkipDiff.is_skippable_unfold]
      simp [SkipDiff.expr, SkipDiff.children]
  · exact main s

theorem SkipDiff.beqList_iff (cs ds : List SkipDiff) :
    SkipDiff.beqList cs ds = true ↔
      List.Forall₂ (fun x y => SkipDiff.beq x y = true) cs ds := by
  induction cs generalizing ds with
  | nil =>
    cases ds <;> simp [SkipDiff.beqList]
  | cons a as ih =>
    cases ds with
    | nil => simp [SkipDiff.beqList]
    | cons b bs =>
      rw [SkipDiff.beqList]
      simp [List.forall₂_cons, ih]

/-- C6: equality on `SkipDiff` depends only on the evaluated decision
outputs and the (pointwise) children: the identity of the decision
closures plays no role, and two nodes built from equal flags and
pointwise-equal children always compare equal. -/
theorem skipdiff_eq_spec :
    (∀ a b : SkipDiff, SkipDiff.beq a b = true ↔
        (a.expr () = b.expr () ∧
          List.Forall₂ (fun x y => SkipDiff.beq x y = true) a.children b.children)) ∧
    (∀ f cs ds, List.Forall₂ (fun x y => SkipDiff.beq x y = true) cs ds →
        SkipDiff.beq (SkipDiff.new f cs) (SkipDiff.new f ds) = true) ∧
    (∀ e1 e2 cs ds, e1 () = e2 () → SkipDiff.beqList cs ds = true →
        SkipDiff.beq (.mk e1 cs) (.mk e2 ds) = true) := by
  have h1 : ∀ a b : SkipDiff, SkipDiff.beq a b = true ↔
      (a.expr () = b.expr () ∧
        List.Forall₂ (fun x y => SkipDiff.beq x y = true) a.children b.children) := by
    intro a b
    cases a with
    | mk e1 cs1 =>
      cases b with
      | mk e2 cs2 =>
        rw [SkipDiff.beq]
        simp [SkipDiff.expr, SkipDiff.children, SkipDiff.beqList_iff]
  refine ⟨h1, ?_, ?_⟩
  · intro f cs ds h
    exact (h1 _ _).2 ⟨rfl, by simpa [SkipDiff.new, SkipDiff.children] using h⟩
  · intro e1 e2 cs ds he hl
    rw [SkipDiff.beq]
    simp [he, hl]

/-- Witness for C2: evaluating `is_skippable_recursive` through the
theorem at a concrete skippable node. -/
theorem skipdiff_is_skippable_witness : (SkipDiff.new true []).expr () = true :=
  (skipdiff_is_skippable_spec (SkipDiff.new true [])).2.mp
    (by rw [SkipDiff.new, SkipDiff.is_skippable_unfold]; simp)
    [] (SkipDiff.new true []) rfl

/-- Witness for C6: two nodes with distinct decision closures that
evaluate to the same boolean compare equal. -/
theorem skipdiff_eq_witness :
    SkipDiff.beq (.mk (fun _ => true) []) (.mk (fun _ => false || true) []) = true :=
  skipdiff_eq_spec.2.2 (fun _ => true) (fun _ => false || true) [] [] rfl rfl

theorem foldl_pickLonger_spec (cands : List (List Nat)) : ∀ (init : List Nat),
    (cands.foldl pickLonger init = init ∨ cands.foldl pickLonger init ∈ cands) ∧
    init.length ≤ (cands.foldl pickLonger init).length ∧
    ∀ x ∈ cands, x.length ≤ (cands.foldl pickLonger init).length := by
  induction cands with
  | nil => intro init; simp
  | cons c cs ih =>
    intro init
    rw [List.foldl_cons]
    rcases ih (pickLonger init c) with ⟨hmem, hinit, hall⟩
    have hpick : pickLonger init c = init ∨ pickLonger init c = c := by
      rw [pickLonger]; split <;> simp
    have hinit2 : init.length ≤ (cs.foldl pickLonger (pickLonger init c)).length := by
      refine le_trans ?_ hinit
      rw [pickLonger]; split <;> omega
    have hc : c.length ≤ (cs.foldl pickLonger (pickLonger init c)).length := by
      refine le_trans ?_ hinit
      rw [pickLonger]; split <;> omega
    refine ⟨?_, hinit2, ?_⟩
    · rcases hmem with h | h
      · rw [h]
        rcases hpick with h2 | h2
        · left; exact h2
        · right; simp [h2]
      · right; simp [h]
    · intro x hx
      rcases List.mem_cons.1 hx with rfl | hx2
      · exact hc
      · exact hall x hx2

/-- On an already strictly increasing index list the longest increasing
subsequence is the list itself. -/
theorem lis_of_chain {l : List Nat} (h : l.Chain' (· < ·)) : lis l = l := by
  rw [lis]
  set cands := l.sublists.filter (fun s => decide (s.Chain' (· < ·))) with hcands
  have hl : l ∈ cands := by
    rw [hcands, List.mem_filter]
    exact ⟨by simp [List.mem_sublists], by simpa using h⟩
  rcases foldl_pickLonger_spec cands [] with ⟨hmem, _, hall⟩
  have hlen : l.length ≤ (cands.foldl pickLonger []).length := hall l hl
  rcases hmem with hres | hres
  · rw [hres] at hlen ⊢
    simp at hlen
    simp [hlen]
  · have hsub : List.Sublist (cands.foldl pickLonger []) l := by
      have := (List.mem_filter.1 (hcands ▸ hres)).1
      exact (List.mem_sublists).1 this
    exact hsub.eq_of_length (le_antisymm (hsub.length_le) hlen)

theorem enumFrom_map_snd : ∀ (l : List Node) (i : Nat),
    (enumFrom i l).map (fun x => x.2) = l := by
  intro l
  induction l with
  | nil => intro i; simp [enumFrom]
  | cons c cs ih => intro i; simp [enumFrom, ih]

theorem enumFrom_map_fst : ∀ (l : List Node) (i : Nat),
    (enumFrom i l).map (fun x => x.1) = List.range' i l.length := by
  intro l
  induction l with
  | nil => intro i; simp [enumFrom]
  | cons c cs ih =>
    intro i
    rw [enumFrom, List.map_cons, ih, List.length_cons, List.range'_succ]

theorem chain_lt_range' : ∀ (n i : Nat), (List.range' i n).Chain' (· < ·) := by
  intro n
  induction n with
  | zero => intro i; simp
  | succ m ih =>
    intro i
    rw [List.range'_succ]
    rcases hm : List.range' (i + 1) m with _ | ⟨a, rest⟩
    · simp
    · rw [List.chain'_cons]
      have : a = i + 1 := by
        cases m with
        | zero => simp [List.range'] at hm
        | succ k =>
          rw [List.range'_succ] at hm
          injection hm with h1 _
          omega
      exact ⟨by omega, hm ▸ ih (i + 1)⟩

theorem dedupNames_nodup : ∀ (l : List String), (dedupNames l).Nodup := by
  intro l
  induction l with
  | nil => simp [dedupNames]
  | cons n ns ih =>
    rw [dedupNames]
    refine List.Nodup.cons ?_ (List.Nodup.filter _ ih)
    intro hmem
    have := List.of_mem_filter hmem
    simp at this

theorem mem_dedupNames : ∀ (l : List String) (m : String), m ∈ dedupNames l ↔ m ∈ l := by
  intro l
  induction l with
  | nil => intro m; simp [dedupNames]
  | cons n ns ih =>
    intro m
    rw [dedupNames]
    by_cases hm : m = n
    · subst hm; simp
    · simp only [List.mem_cons, List.mem_filter]
      constructor
      · rintro (h | ⟨h, _⟩)
        · exact Or.inl h
        · exact Or.inr ((ih m).1 h)
      · rintro (h | h)
        · exact Or.inl h
        · exact Or.inr ⟨(ih m).2 h, by simpa using hm⟩

theorem merge_map_name (attrs : List Attribute) :
    (merge_attributes_of_same_name attrs).map (fun a => a.name) =
      dedupNames (attrs.map (fun a => a.name)) := by
  rw [merge_attributes_of_same_name]
  generalize dedupNames (attrs.map fun a => a.name) = ns
  induction ns with
  | nil => rfl
  | cons n rest ih => simp only [List.map_cons] at ih ⊢; rw [ih]

theorem merge_name_nodup (attrs : List Attribute) :
    ((merge_attributes_of_same_name attrs).map (fun a => a.name)).Nodup := by
  rw [merge_map_name]
  exact dedupNames_nodup _

theorem lookupAttr_mem_self : ∀ (l : List Attribute),
    ((l.map (fun a => a.name)).Nodup) → ∀ a ∈ l, lookupAttr l a.name = some a := by
  intro l
  induction l with
  | nil => intro _ a ha; cases ha
  | cons b bs ih =>
    intro hnd a ha
    rw [List.map_cons, List.nodup_cons] at hnd
    rcases List.mem_cons.1 ha with rfl | hmem
    · simp [lookupAttr]
    · have hne : b.name ≠ a.name := by
        intro he
        exact hnd.1 (he ▸ List.mem_map_of_mem (fun a => a.name) hmem)
      rw [lookupAttr, List.find?]
      have : (b.name == a.name) = false := by
        simpa using hne
      rw [this]
      exact ih hnd.2 a hmem

theorem merge_self_lookup (attrs : List Attribute) :
    ∀ a ∈ merge_attributes_of_same_name attrs,
      lookupAttr (merge_attributes_of_same_name attrs) a.name = some a :=
  lookupAttr_mem_self _ (merge_name_nodup attrs)

/-- Attribute diff of a set against itself: empty when no volatile
reserved attribute name occurs. -/
theorem attrDiff_self (attrs : List Attribute) (path : TreePath) (tag : Option String)
    (h : attrs.all (fun a => !(volatileNames.contains a.name)) = true) :
    attrDiff attrs attrs path tag = [] := by
  rw [attrDiff]
  have hrem : (merge_attributes_of_same_name attrs).filter
      (fun a => (lookupAttr (merge_attributes_of_same_name attrs) a.name).isNone) = [] := by
    rw [List.filter_eq_nil_iff]
    intro a ha
    rw [merge_self_lookup attrs a ha]
    simp
  have hadd : (merge_attributes_of_same_name attrs).filter
      (fun a => volatileNames.contains a.name ||
        (match lookupAttr (merge_attributes_of_same_name attrs) a.name with
         | some b => !(b.value == a.value)
         | none => true)) = [] := by
    rw [List.filter_eq_nil_iff]
    intro a ha
    have hname : a.name ∈ attrs.map (fun a => a.name) := by
      have : a.name ∈ (merge_attributes_of_same_name attrs).map (fun a => a.name) :=
        List.mem_map_of_mem _ ha
      rw [merge_map_name] at this
      exact (mem_dedupNames _ _).1 this
    rcases List.mem_map.1 hname with ⟨b, hb, hbn⟩
    have hvol : volatileNames.contains a.name = false := by
      have := List.all_eq_true.1 h b hb
      rw [hbn] at this
      simpa using this
    rw [merge_self_lookup attrs a ha, hvol]
    simp
  rw [hrem, hadd]
  simp

theorem assignMatches_self : ∀ (oc : List Node) (i : Nat),
    assignMatches (enumFrom i oc) oc = (enumFrom i oc).map (fun x => (some x, x.2)) := by
  intro oc
  induction oc with
  | nil => intro i; rfl
  | cons o os ih =>
    intro i
    rw [enumFrom, assignMatches]
    have hfind : findKeyMatch (getKey o) ((i, o) :: enumFrom (i + 1) os) =
        some ((i, o), enumFrom (i + 1) os) := by
      rw [findKeyMatch]
      simp
    rw [hfind]
    simp only [List.map_cons]
    rw [ih (i + 1)]

theorem freshInserts_all_some (path : TreePath) (tag : Option String) :
    ∀ (ms earlier : List (Option (Nat × Node) × Node)),
      (∀ m ∈ ms, m.1.isSome = true) → freshInserts path tag earlier ms = [] := by
  intro ms
  induction ms with
  | nil => intro earlier _; rfl
  | cons m rest ih =>
    intro earlier hall
    rw [freshInserts]
    rcases hm : m.1 with _ | y
    · have := hall m (by simp)
      rw [hm] at this
      cases this
    · exact ih _ (fun x hx => hall x (by simp [hx]))

theorem keyedPlan_self (oc : List Node) (path : TreePath) (tag : Option String) :
    keyedPlan oc oc path tag =
      ⟨[], (enumFrom 0 oc).map (fun x => (x.1, x.2, x.2))⟩ := by
  rw [keyedPlan]
  rw [assignMatches_self oc 0]
  have hmatched : ∀ (l : List (Nat × Node)),
      (l.map (fun x => ((some x, x.2) : Option (Nat × Node) × Node))).filterMap
        (fun m => m.1) = l := by
    intro l
    induction l with
    | nil => rfl
    | cons x xs ih => simp only [List.map_cons, List.filterMap_cons]; rw [ih]
  rw [hmatched]
  have hchain : ((enumFrom 0 oc).map (fun x => x.1)).Chain' (· < ·) := by
    rw [enumFrom_map_fst]
    exact chain_lt_range' _ _
  rw [lis_of_chain hchain]
  have hrem : (enumFrom 0 oc).filter
      (fun x => !(((enumFrom 0 oc).map (fun x => x.1)).contains x.1)) = [] := by
    rw [List.filter_eq_nil_iff]
    intro x hx
    have hmem : x.1 ∈ (enumFrom 0 oc).map (fun x => x.1) := List.mem_map_of_mem _ hx
    have : ((enumFrom 0 oc).map (fun x => x.1)).contains x.1 = true :=
      List.elem_eq_true_of_mem hmem
    simp [this]
    exact ⟨x.2, by simpa using hx⟩
  rw [hrem]
  have hins : freshInserts path tag [] ((enumFrom 0 oc).map (fun x => (some x, x.2))) = [] := by
    refine freshInserts_all_some path tag _ [] ?_
    intro m hm
    rcases List.mem_map.1 hm with ⟨x, _, rfl⟩
    rfl
  rw [hins]
  have hpairs : ∀ (l : List (Nat × Node)),
      (l.map (fun x => ((some x, x.2) : Option (Nat × Node) × Node))).filterMap
        (fun m => m.1.map (fun x => (x.1, x.2, m.2))) =
      l.map (fun x => (x.1, x.2, x.2)) := by
    intro l
    induction l with
    | nil => rfl
    | cons x xs ih => simp only [List.map_cons, List.filterMap_cons]; rw [ih]; rfl
  rw [hpairs]
  simp

theorem zipWithIndex_self : ∀ (oc : List Node) (i : Nat),
    zipWithIndex oc oc i = (enumFrom i oc).map (fun x => (x.1, x.2, x.2)) := by
  intro oc
  induction oc with
  | nil => intro i; rfl
  | cons o os ih =>
    intro i
    rw [zipWithIndex, enumFrom, List.map_cons, ih (i + 1)]

theorem positionalPlan_self (oc : List Node) (path : TreePath) (tag : Option String) :
    positionalPlan oc oc path tag =
      ⟨[], (enumFrom 0 oc).map (fun x => (x.1, x.2, x.2))⟩ := by
  rw [positionalPlan]
  simp [zipWithIndex_self]

theorem childPlan_self (oc : List Node) (path : TreePath) (tag : Option String) :
    childPlan oc oc path tag =
      ⟨[], (enumFrom 0 oc).map (fun x => (x.1, x.2, x.2))⟩ := by
  rw [childPlan]
  split
  · exact keyedPlan_self oc path tag
  · exact positionalPlan_self oc path tag

theorem noVolatile_element {t : String} {ns : Option String} {attrs : List Attribute}
    {cs : List Node} (h : noVolatile (.Element t ns attrs cs) = true) :
    attrs.all (fun a => !(volatileNames.contains a.name)) = true ∧
      ∀ c ∈ cs, noVolatile c = true := by
  rw [noVolatile] at h
  rw [Bool.and_eq_true] at h
  rcases h with ⟨h1, h2⟩
  refine ⟨h1, ?_⟩
  intro c hc
  have := List.all_eq_true.1 h2 ⟨c, hc⟩ (List.mem_attach _ _)
  exact this

theorem noVolatile_fragment {cs : List Node}
    (h : noVolatile (.Fragment cs) = true) : ∀ c ∈ cs, noVolatile c = true := by
  rw [noVolatile] at h
  intro c hc
  exact List.all_eq_true.1 h ⟨c, hc⟩ (List.mem_attach _ _)

theorem noReplaceSet_element {t : String} {ns : Option String} {attrs : List Attribute}
    {cs : List Node} (h : noReplaceSet (.Element t ns attrs cs) = true) :
    isReplaceSet (.Element t ns attrs cs) = false ∧
      ∀ c ∈ cs, noReplaceSet c = true := by
  rw [noReplaceSet] at h
  rw [Bool.and_eq_true] at h
  rcases h with ⟨h1, h2⟩
  refine ⟨by simpa using h1, ?_⟩
  intro c hc
  exact List.all_eq_true.1 h2 ⟨c, hc⟩ (List.mem_attach _ _)

theorem noReplaceSet_fragment {cs : List Node}
    (h : noReplaceSet (.Fragment cs) = true) : ∀ c ∈ cs, noReplaceSet c = true := by
  rw [noReplaceSet] at h
  intro c hc
  exact List.all_eq_true.1 h ⟨c, hc⟩ (List.mem_attach _ _)

/-- Flattening a list whose members are all empty yields the empty
list. -/
theorem flatten_nil_of_all (L : List (List Patch)) (h : ∀ l ∈ L, l = []) :
    L.flatten = [] := by
  induction L with
  | nil => rfl
  | cons a as ih =>
    rw [List.flatten_cons, h a (by simp), List.nil_append]
    exact ih (fun l hl => h l (by simp [hl]))

/-- Diffing a tree against itself yields no patches, provided no
volatile reserved attribute occurs and the `replace` attribute is not
set anywhere. -/
theorem diff_recursive_self (T : Node) :
    ∀ path, noVolatile T = true → noReplaceSet T = true →
      diff_recursive T T path = [] := by
  induction T using Node.strongInd with
  | hlf l =>
    intro path _ _
    rw [diff_recursive]
    simp
  | hel t ns attrs cs ih =>
    intro path hv hr
    rcases noVolatile_element hv with ⟨hva, hvc⟩
    rcases noReplaceSet_element hr with ⟨hr1, hrc⟩
    rw [diff_recursive]
    rw [hr1]
    simp only [bne_self_eq_false, Bool.or_false, Bool.false_eq_true, if_false]
    rw [childPlan_self, attrDiff_self attrs path (some t) hva]
    simp only [List.nil_append, List.append_nil]
    apply flatten_nil_of_all
    intro l hl
    rcases List.mem_map.1 hl with ⟨pr, hpr, rfl⟩
    rcases List.mem_map.1 pr.2 with ⟨x, hx, hxe⟩
    have hc : x.2 ∈ cs := enumFrom_mem cs 0 x hx
    have h1 : (pr.1).2.1 = x.2 := by rw [← hxe]
    have h2 : (pr.1).2.2 = x.2 := by rw [← hxe]
    rw [h1, h2]
    exact ih x.2 hc _ (hvc x.2 hc) (hrc x.2 hc)
  | hfr cs ih =>
    intro path hv hr
    have hvc := noVolatile_fragment hv
    have hrc := noReplaceSet_fragment hr
    rw [diff_recursive]
    rw [childPlan_self]
    simp only [List.nil_append]
    apply flatten_nil_of_all
    intro l hl
    rcases List.mem_map.1 hl with ⟨pr, hpr, rfl⟩
    rcases List.mem_map.1 pr.2 with ⟨x, hx, hxe⟩
    have hc : x.2 ∈ cs := enumFrom_mem cs 0 x hx
    have h1 : (pr.1).2.1 = x.2 := by rw [← hxe]
    have h2 : (pr.1).2.2 = x.2 := by rw [← hxe]
    rw [h1, h2]
    exact ih x.2 hc _ (hvc x.2 hc) (hrc x.2 hc)

/-- C5 (amended): `diff(T, T)` is empty for every tree `T` containing
none of the volatile reserved attributes and no set `replace`
attribute. -/
theorem diff_self_empty (T : Node) (h1 : noVolatile T = true)
    (h2 : noReplaceSet T = true) : diff T T = [] :=
  diff_recursive_self T TreePath.root h1 h2

/-- Witness for C5: a concrete element with an ordinary attribute and
a leaf child diffs against itself to the empty patch list. -/
theorem diff_self_empty_witness :
    diff (.Element "div" none [⟨none, "class", [.Simple (.str "a")]⟩] [.Leaf (.Text "hi")])
      (.Element "div" none [⟨none, "class", [.Simple (.str "a")]⟩] [.Leaf (.Text "hi")]) = [] :=
  diff_self_empty _
    (by simp [noVolatile, volatileNames])
    (by simp [noReplaceSet, isReplaceSet])

/-- Counterexample for C5 as stated: a tree with a set `replace`
attribute contains no volatile reserved attribute, yet diffing it
against itself emits a (forced) `ReplaceNode` patch. -/
theorem diff_self_counterexample :
    noVolatile (.Element "div" none [⟨none, "replace", [.Simple (.bool true)]⟩] []) = true ∧
    diff (.Element "div" none [⟨none, "replace", [.Simple (.bool true)]⟩] [])
      (.Element "div" none [⟨none, "replace", [.Simple (.bool true)]⟩] []) ≠ [] := by
  constructor
  · simp [noVolatile, volatileNames]
  · rw [diff, diff_recursive]
    simp [isReplaceSet]

/-- C9: equality on `TemplatedView` is determined by the `view` field
alone; the template and skip-diff closures are invisible to it. -/
theorem templated_view_eq_spec :
    (∀ a b : TemplatedView, TemplatedView.beq a b = Node.beq a.view b.view) ∧
    (∀ (v1 v2 : Node) (t1 t2 : Unit → Node) (s1 s2 : Unit → SkipDiff),
      Node.beq v1 v2 = true →
        TemplatedView.beq ⟨v1, t1, s1⟩ ⟨v2, t2, s2⟩ = true) := by
  refine ⟨fun a b => rfl, ?_⟩
  intro v1 v2 t1 t2 s1 s2 h
  exact h

/-- Witness for C9: two templated views with equal view trees but
disagreeing template and skip-diff closures compare equal. -/
theorem templated_view_eq_witness :
    TemplatedView.beq
      ⟨.Fragment [], fun _ => .Fragment [], fun _ => SkipDiff.new true []⟩
      ⟨.Fragment [], fun _ => .Leaf (.Text "x"), fun _ => SkipDiff.new false []⟩ = true :=
  templated_view_eq_spec.2 (.Fragment []) (.Fragment [])
    (fun _ => .Fragment []) (fun _ => .Leaf (.Text "x"))
    (fun _ => SkipDiff.new true []) (fun _ => SkipDiff.new false [])
    (by rw [Node.beq]; rfl)

theorem mapMOpt_length (f : α → Option β) :
    ∀ (l : List α) (r : List β), mapMOpt f l = some r → r.length = l.length := by
  intro l
  induction l with
  | nil => intro r h; rw [mapMOpt] at h; injection h with h; rw [← h]; rfl
  | cons a as ih =>
    intro r h
    rw [mapMOpt] at h
    rcases hfa : f a with _ | b
    · rw [hfa] at h; cases h
    · rw [hfa] at h
      rcases hrec : mapMOpt f as with _ | bs
      · rw [hrec] at h; cases h
      · rw [hrec] at h
        injection h with h
        rw [← h]
        simp [ih bs hrec]

theorem mapMOpt_none_of_mem (f : α → Option β) :
    ∀ (l : List α) (a : α), a ∈ l → f a = none → mapMOpt f l = none := by
  intro l
  induction l with
  | nil => intro a ha; cases ha
  | cons b bs ih =>
    intro a ha hfa
    rw [mapMOpt]
    rcases List.mem_cons.1 ha with rfl | hmem
    · rw [hfa]
    · rcases hfb : f b with _ | c
      · rfl
      · rw [ih a hmem hfa]
        rfl

theorem mapMOpt_forall₂ (f : α → Option β) :
    ∀ (l : List α) (r : List β), mapMOpt f l = some r →
      List.Forall₂ (fun a b => f a = some b) l r := by
  intro l
  induction l with
  | nil =>
    intro r h
    rw [mapMOpt] at h
    injection h with h
    rw [← h]
    exact List.Forall₂.nil
  | cons a as ih =>
    intro r h
    rw [mapMOpt] at h
    rcases hfa : f a with _ | b
    · rw [hfa] at h; cases h
    · rw [hfa] at h
      rcases hrec : mapMOpt f as with _ | bs
      · rw [hrec] at h; cases h
      · rw [hrec] at h
        injection h with h
        rw [← h]
        exact List.Forall₂.cons hfa (ih bs hrec)

/-- C4: `convert_patches` never produces a recoverable error: an
unresolvable patch path or a tag mismatch is an unrecoverable fault
(a panic, modelled as `none`); whenever the function returns, it
returns `Ok` with exactly one `DomPatch` per input `Patch`. -/
theorem convert_patches_error_free (create : Node → DomNode)
    (find_all_nodes : List (TreePath × Option String) → TreePath → Option DomNode)
    (patches : List Patch) :
    (∀ e, (convert_patches create find_all_nodes patches).1 ≠ some (Except.error e)) ∧
    (∀ l, (convert_patches create find_all_nodes patches).1 = some (Except.ok l) →
      l.length = patches.length) ∧
    (∀ p ∈ patches,
      (find_all_nodes (nodes_to_find patches) p.path = none →
        (convert_patches create find_all_nodes patches).1 = none) ∧
      (∀ target pt tt, find_all_nodes (nodes_to_find patches) p.path = some target →
        p.tag = some pt → target.tag = some tt → pt ≠ tt →
        (convert_patches create find_all_nodes patches).1 = none)) := by
  rw [convert_patches]
  refine ⟨?_, ?_, ?_⟩
  · intro e
    rcases hm : mapMOpt _ patches with _ | l
    · simp [hm]
    · simp [hm]
  · intro l h
    simp only at h
    rcases hm : mapMOpt _ patches with _ | l2
    · rw [hm] at h; cases h
    · rw [hm] at h
      simp only [Option.map_some', Option.some.injEq] at h
      injection h with h
      rw [← h]
      exact mapMOpt_length _ patches l2 hm
  · intro p hp
    constructor
    · intro hnone
      have : (fun patch =>
          match find_all_nodes (nodes_to_find patches) patch.path with
          | some target_node =>
            match patch.tag, target_node.tag with
            | some patch_tag, some target_tag =>
              if patch_tag == target_tag then
                convert_patch create (find_all_nodes (nodes_to_find patches)) target_node patch
              else none
            | _, _ => convert_patch create (find_all_nodes (nodes_to_find patches)) target_node patch
          | none => none) p = none := by
        simp only [hnone]
      rw [mapMOpt_none_of_mem _ patches p hp this]
      rfl
    · intro target pt tt hfind htag httag hne
      have : (fun patch =>
          match find_all_nodes (nodes_to_find patches) patch.path with
          | some target_node =>
            match patch.tag, target_node.tag with
            | some patch_tag, some target_tag =>
              if patch_tag == target_tag then
                convert_patch create (find_all_nodes (nodes_to_find patches)) target_node patch
              else none
            | _, _ => convert_patch create (find_all_nodes (nodes_to_find patches)) target_node patch
          | none => none) p = none := by
        have hbe : (pt == tt) = false := by simpa using hne
        simp only [hfind, htag, httag, hbe]
        rfl
      rw [mapMOpt_none_of_mem _ patches p hp this]
      rfl

/-- C3: `convert_patches` resolves all nodes in a single
`find_all_nodes` call whose request list is every patch path paired
with its expected tag followed by every auxiliary move-source path
paired with no tag, and the `Move*` conversions obtain their
`for_moving` nodes by looking the carried paths up in the resulting
mapping. -/
theorem convert_patches_find_all_nodes_spec (create : Node → DomNode)
    (find_all_nodes : List (TreePath × Option String) → TreePath → Option DomNode)
    (patches : List Patch) :
    ((convert_patches create find_all_nodes patches).2 = [nodes_to_find patches]) ∧
    ((nodes_to_find patches).take patches.length =
      patches.map (fun p => (p.path, p.tag)) ∧
     (nodes_to_find patches).drop patches.length =
      ((patches.map Patch.node_paths).flatten).map (fun q => (q, none))) ∧
    (∀ (lookup : TreePath → Option DomNode) (target : DomNode) (p : Patch) (dp : DomPatch),
      convert_patch create lookup target p = some dp →
      (∀ ps, p.patch_type = .MoveBeforeNode ps →
        ∃ fm, dp.patch_variant = .MoveBeforeNode fm ∧
          List.Forall₂ (fun q d => lookup q = some d) ps fm) ∧
      (∀ ps, p.patch_type = .MoveAfterNode ps →
        ∃ fm, dp.patch_variant = .MoveAfterNode fm ∧
          List.Forall₂ (fun q d => lookup q = some d) ps fm)) := by
  refine ⟨rfl, ⟨?_, ?_⟩, ?_⟩
  · rw [nodes_to_find]
    have hlen : (patches.map (fun p => (p.path, p.tag))).length = patches.length :=
      List.length_map _ _
    rw [← hlen, List.take_left]
  · rw [nodes_to_find]
    have hlen : (patches.map (fun p => (p.path, p.tag))).length = patches.length :=
      List.length_map _ _
    rw [← hlen, List.drop_left]
  · intro lookup target p dp hconv
    constructor
    · intro ps hps
      rw [convert_patch, hps] at hconv
      simp only at hconv
      rcases hmm : mapMOpt lookup ps with _ | fm
      · rw [hmm] at hconv; cases hconv
      · rw [hmm] at hconv
        simp only [Option.map_some', Option.some.injEq] at hconv
        refine ⟨fm, ?_, mapMOpt_forall₂ lookup ps fm hmm⟩
        rw [← hconv]
    · intro ps hps
      rw [convert_patch, hps] at hconv
      simp only at hconv
      rcases hmm : mapMOpt lookup ps with _ | fm
      · rw [hmm] at hconv; cases hconv
      · rw [hmm] at hconv
        simp only [Option.map_some', Option.some.injEq] at hconv
        refine ⟨fm, ?_, mapMOpt_forall₂ lookup ps fm hmm⟩
        rw [← hconv]

/-- Witness for C3: converting a concrete `MoveBeforeNode` patch
resolves its carried path through the lookup. -/
theorem convert_patches_find_witness :
    ∃ fm, (DomPatch.mk [] (.mk 0 none false [] []) (.MoveBeforeNode [.mk 0 none false [] []])).patch_variant =
        .MoveBeforeNode fm ∧
      List.Forall₂ (fun (q : TreePath) (d : DomNode) =>
        (fun _ => some (DomNode.mk 0 none false [] [])) q = some d) [[0]] fm :=
  ((convert_patches_find_all_nodes_spec (fun _ => .mk 0 none false [] [])
      (fun _ _ => some (.mk 0 none false [] [])) []).2.2
    (fun _ => some (.mk 0 none false [] [])) (.mk 0 none false [] [])
    ⟨[], none, .MoveBeforeNode [[0]]⟩
    ⟨[], .mk 0 none false [] [], .MoveBeforeNode [.mk 0 none false [] []]⟩
    rfl).1 [[0]] rfl

/-- Witness for C4: a patch whose path the resolver cannot find makes
the whole conversion fault. -/
theorem convert_patches_error_free_witness :
    (convert_patches (fun _ => DomNode.mk 0 none false [] []) (fun _ _ => none)
      [⟨[], some "div", .RemoveNode⟩]).1 = none :=
  ((convert_patches_error_free (fun _ => DomNode.mk 0 none false [] []) (fun _ _ => none)
      [⟨[], some "div", .RemoveNode⟩]).2.2
    ⟨[], some "div", .RemoveNode⟩ (by simp)).1 rfl

theorem attrDiff_attr_nodup (oa na : List Attribute) (path : TreePath)
    (tag : Option String) (p : Patch) (hmem : p ∈ attrDiff oa na path tag) :
    ∀ attrs, (p.patch_type = .AddAttributes attrs ∨ p.patch_type = .RemoveAttributes attrs) →
      (attrs.map (fun a => a.name)).Nodup := by
  intro attrs htype
  rw [attrDiff] at hmem
  have hsub : ∀ (src : List Attribute) (q : Attribute → Bool),
      ((src.filter q).map (fun a => a.name)).Sublist (src.map (fun a => a.name)) :=
    fun src q => (List.filter_sublist src).map _
  rcases List.mem_append.1 hmem with h1 | h2
  · rcases hr : (merge_attributes_of_same_name oa).filter
        (fun a => (lookupAttr (merge_attributes_of_same_name na) a.name).isNone) with _ | ⟨x, xs⟩
    · rw [hr] at h1
      simp at h1
    · rw [hr] at h1
      simp only [List.isEmpty_cons, if_false, Bool.false_eq_true, List.mem_singleton] at h1
      subst h1
      rcases htype with ht | ht
      · cases ht
      · simp only [Patch.patch_type, PatchType.RemoveAttributes.injEq] at ht
        rw [← ht, ← hr]
        exact (merge_name_nodup oa).sublist (hsub _ _)
  · rcases ha : (merge_attributes_of_same_name na).filter
        (fun a => volatileNames.contains a.name ||
          (match lookupAttr (merge_attributes_of_same_name oa) a.name with
           | some b => !(b.value == a.value)
           | none => true)) with _ | ⟨x, xs⟩
    · rw [ha] at h2
      simp at h2
    · rw [ha] at h2
      simp only [List.isEmpty_cons, if_false, Bool.false_eq_true, List.mem_singleton] at h2
      subst h2
      rcases htype with ht | ht
      · simp only [Patch.patch_type, PatchType.AddAttributes.injEq] at ht
        rw [← ht, ← ha]
        exact (merge_name_nodup na).sublist (hsub _ _)
      · cases ht

theorem movePatchFor_shape (path : TreePath) (tag : Option String) (lisIdx : List Nat)
    (i : Nat) : ∀ attrs,
      (movePatchFor path tag lisIdx i).patch_type ≠ PatchType.AddAttributes attrs ∧
      (movePatchFor path tag lisIdx i).patch_type ≠ PatchType.RemoveAttributes attrs := by
  intro attrs
  rw [movePatchFor]
  rcases lisIdx.find? (fun j => i < j) with _ | j
  · rcases (lisIdx.filter (fun j => j < i)).getLast? with _ | j
    · constructor <;> (intro hco; cases hco)
    · constructor <;> (intro hco; cases hco)
  · constructor <;> (intro hco; cases hco)

theorem insertPatchFor_shape (path : TreePath) (tag : Option String)
    (later earlier : List (Option (Nat × Node) × Node)) (c : Node) : ∀ attrs,
      (insertPatchFor path tag later earlier c).patch_type ≠ PatchType.AddAttributes attrs ∧
      (insertPatchFor path tag later earlier c).patch_type ≠ PatchType.RemoveAttributes attrs := by
  intro attrs
  rw [insertPatchFor]
  split
  · constructor <;> (intro hco; cases hco)
  · split
    · constructor <;> (intro hco; cases hco)
    · constructor <;> (intro hco; cases hco)

theorem freshInserts_mem (path : TreePath) (tag : Option String) :
    ∀ (ms earlier : List (Option (Nat × Node) × Node)) (p : Patch),
      p ∈ freshInserts path tag earlier ms →
      ∃ later e2 c, p = insertPatchFor path tag later e2 c := by
  intro ms
  induction ms with
  | nil => intro earlier p h; cases h
  | cons m rest ih =>
    intro earlier p h
    rw [freshInserts] at h
    rcases hm : m.1 with _ | y
    · rw [hm] at h
      rcases List.mem_cons.1 h with rfl | h2
      · exact ⟨rest, earlier, m.2, rfl⟩
      · exact ih earlier p h2
    · rw [hm] at h
      exact ih (earlier ++ [m]) p h

theorem childPlan_patches_shape (oc nc : List Node) (path : TreePath)
    (tag : Option String) (p : Patch) (h : p ∈ (childPlan oc nc path tag).patches) :
    ∀ attrs, p.patch_type ≠ PatchType.AddAttributes attrs ∧
      p.patch_type ≠ PatchType.RemoveAttributes attrs := by
  intro attrs
  rw [childPlan] at h
  split at h
  · rw [keyedPlan] at h
    simp only at h
    rcases List.mem_append.1 h with h1 | h2
    · rcases List.mem_append.1 h1 with h3 | h4
      · rcases List.mem_map.1 h3 with ⟨x, _, rfl⟩
        constructor <;> (intro hco; cases hco)
      · rcases List.mem_map.1 h4 with ⟨x, _, rfl⟩
        exact movePatchFor_shape path tag _ x.1 attrs
    · rcases freshInserts_mem path tag _ _ p h2 with ⟨later, e2, c, rfl⟩
      exact insertPatchFor_shape path tag later e2 c attrs
  · rw [positionalPlan] at h
    simp only at h
    rcases List.mem_append.1 h with h1 | h2
    · split at h1
      · split at h1
        · rcases List.mem_singleton.1 h1 with rfl
          constructor <;> (intro hco; cases hco)
        · rw [removeTrailing] at h1
          rcases List.mem_map.1 h1 with ⟨x, _, rfl⟩
          constructor <;> (intro hco; cases hco)
      · cases h1
    · split at h2
      · rcases List.mem_singleton.1 h2 with rfl
        constructor <;> (intro hco; cases hco)
      · cases h2

/-- Every `AddAttributes` or `RemoveAttributes` patch emitted by the
diff engine carries attributes with pairwise distinct names (they are
built from merged attribute sets). -/
theorem diff_attr_nodup (T1 : Node) : ∀ (T2 : Node) (path : TreePath) (p : Patch),
    p ∈ diff_recursive T1 T2 path →
    ∀ attrs, (p.patch_type = .AddAttributes attrs ∨ p.patch_type = .RemoveAttributes attrs) →
    (attrs.map (fun a => a.name)).Nodup := by
  induction T1 using Node.strongInd with
  | hlf l =>
    intro T2 path p hmem attrs htype
    cases T2 with
    | Leaf l2 =>
      rw [diff_recursive] at hmem
      split at hmem
      · cases hmem
      · rcases List.mem_singleton.1 hmem with rfl
        rcases htype with ht | ht <;> cases ht
    | Element t2 n2 na nc =>
      rw [diff_recursive] at hmem
      · rcases List.mem_singleton.1 hmem with rfl
        rcases htype with ht | ht <;> cases ht
      all_goals simp
    | Fragment nc =>
      rw [diff_recursive] at hmem
      · rcases List.mem_singleton.1 hmem with rfl
        rcases htype with ht | ht <;> cases ht
      all_goals simp
  | hel t ns oa oc ih =>
    intro T2 path p hmem attrs htype
    cases T2 with
    | Element t2 n2 na nc =>
      rw [diff_recursive] at hmem
      split at hmem
      · rcases List.mem_singleton.1 hmem with rfl
        rcases htype with ht | ht <;> cases ht
      · simp only at hmem
        rcases List.mem_append.1 hmem with h1 | h2
        · rcases List.mem_append.1 h1 with h3 | h4
          · exact attrDiff_attr_nodup oa na path (some t) p h3 attrs htype
          · have := childPlan_patches_shape oc nc path (some t) p h4 attrs
            rcases htype with ht | ht
            · exact absurd ht this.1
            · exact absurd ht this.2
        · rcases List.mem_flatten.1 h2 with ⟨l, hl, hpl⟩
          rcases List.mem_map.1 hl with ⟨pr, _, rfl⟩
          have ho : pr.1.2.1 ∈ oc := childPlan_pairs_mem pr.2
          exact ih pr.1.2.1 ho pr.1.2.2 (TreePath.traverse path pr.1.1) p hpl attrs htype
    | Leaf l2 =>
      rw [diff_recursive] at hmem
      · rcases List.mem_singleton.1 hmem with rfl
        rcases htype with ht | ht <;> cases ht
      all_goals simp
    | Fragment nc =>
      rw [diff_recursive] at hmem
      · rcases List.mem_singleton.1 hmem with rfl
        rcases htype with ht | ht <;> cases ht
      all_goals simp
  | hfr oc ih =>
    intro T2 path p hmem attrs htype
    cases T2 with
    | Fragment nc =>
      rw [diff_recursive] at hmem
      try simp only at hmem
      rcases List.mem_append.1 hmem with h1 | h2
      · have := childPlan_patches_shape oc nc path none p h1 attrs
        rcases htype with ht | ht
        · exact absurd ht this.1
        · exact absurd ht this.2
      · rcases List.mem_flatten.1 h2 with ⟨l, hl, hpl⟩
        rcases List.mem_map.1 hl with ⟨pr, _, rfl⟩
        have ho : pr.1.2.1 ∈ oc := childPlan_pairs_mem pr.2
        exact ih pr.1.2.1 ho pr.1.2.2 (TreePath.traverse path pr.1.1) p hpl attrs htype
    | Leaf l2 =>
      rw [diff_recursive] at hmem
      · rcases List.mem_singleton.1 hmem with rfl
        rcases htype with ht | ht <;> cases ht
      all_goals simp
    | Element t2 n2 na nc =>
      rw [diff_recursive] at hmem
      · rcases List.mem_singleton.1 hmem with rfl
        rcases htype with ht | ht <;> cases ht
      all_goals simp

theorem map_convert_attr_name (l : List Attribute) :
    (l.map convert_attr).map (fun a => a.name) = l.map (fun a => a.name) := by
  induction l with
  | nil => rfl
  | cons a as ih => simp only [List.map_cons]; rw [ih]; rfl

/-- C7: attributes of the same name are merged into a single attribute
before application: the converted `AddAttributes` payload holds the
merged attributes (at most one per name), and the diff engine itself
never emits an `AddAttributes` or `RemoveAttributes` patch with a
duplicate attribute name. -/
theorem attr_merge_spec :
    (∀ (create : Node → DomNode) (lookup : TreePath → Option DomNode)
        (target : DomNode) (p : Patch) (attrs : List Attribute) (dp : DomPatch),
      p.patch_type = .AddAttributes attrs →
      convert_patch create lookup target p = some dp →
      dp.patch_variant =
          .AddAttributes ((merge_attributes_of_same_name attrs).map convert_attr) ∧
        ((((merge_attributes_of_same_name attrs).map convert_attr).map
          (fun a => a.name)).Nodup)) ∧
    (∀ (T1 T2 : Node) (path : TreePath) (p : Patch) (attrs : List Attribute),
      p ∈ diff_recursive T1 T2 path →
      (p.patch_type = .AddAttributes attrs ∨ p.patch_type = .RemoveAttributes attrs) →
      (attrs.map (fun a => a.name)).Nodup) := by
  constructor
  · intro create lookup target p attrs dp htype hconv
    rw [convert_patch, htype] at hconv
    simp only [Option.some.injEq] at hconv
    constructor
    · rw [← hconv]
    · rw [map_convert_attr_name]
      exact merge_name_nodup attrs
  · intro T1 T2 path p attrs hmem htype
    exact diff_attr_nodup T1 T2 path p hmem attrs htype

/-- Witness for C7: converting an `AddAttributes` patch carrying two
same-name attributes yields a single merged attribute. -/
theorem attr_merge_witness :
    (DomPatch.mk [] (.mk 0 none false [] [])
        (.AddAttributes [⟨none, "class", [.Simple (.str "a"), .Simple (.str "b")]⟩])).patch_variant =
      .AddAttributes ((merge_attributes_of_same_name
        [⟨none, "class", [.Simple (.str "a")]⟩,
         ⟨none, "class", [.Simple (.str "b")]⟩]).map convert_attr) ∧
    ((((merge_attributes_of_same_name
        [⟨none, "class", [.Simple (.str "a")]⟩,
         ⟨none, "class", [.Simple (.str "b")]⟩]).map convert_attr).map
      (fun a => a.name)).Nodup) :=
  attr_merge_spec.1 (fun _ => .mk 0 none false [] []) (fun _ => none)
    (.mk 0 none false [] [])
    ⟨[], none, .AddAttributes [⟨none, "class", [.Simple (.str "a")]⟩,
      ⟨none, "class", [.Simple (.str "b")]⟩]⟩
    [⟨none, "class", [.Simple (.str "a")]⟩, ⟨none, "class", [.Simple (.str "b")]⟩]
    ⟨[], .mk 0 none false [] [],
      .AddAttributes [⟨none, "class", [.Simple (.str "a"), .Simple (.str "b")]⟩]⟩
    rfl rfl

/-- A successful single patch application reports exactly the root
replacement the patch denotes. -/
theorem apply_dom_patch_root (st : DomState) (p : DomPatch) (r0 : Option DomNode)
    (st0 : DomState) (h : apply_dom_patch st p = some (r0, st0)) :
    r0 = rootReplacementOf p ∧
      (r0.isSome = true ↔ (p.patch_path.isEmpty = true ∧ isReplacePatch p = true)) := by
  rw [apply_dom_patch] at h
  rcases p with ⟨patch_path, target, variant⟩
  cases variant with
  | InsertBeforeNode nodes =>
    simp only at h
    rcases happ : applyAll (fun m n => insertBeforeOp m target.id n) st.mount nodes with _ | m
    · rw [happ] at h; cases h
    · rw [happ] at h
      simp only [Option.map_some', Option.some.injEq, Prod.mk.injEq] at h
      rw [← h.1]
      simp [rootReplacementOf, isReplacePatch]
  | InsertAfterNode nodes =>
    simp only at h
    rcases happ : applyAll (fun m n => insertAfterOp m target.id n) st.mount nodes.reverse with _ | m
    · rw [happ] at h; cases h
    · rw [happ] at h
      simp only [Option.map_some', Option.some.injEq, Prod.mk.injEq] at h
      rw [← h.1]
      simp [rootReplacementOf, isReplacePatch]
  | AppendChildren children =>
    simp only at h
    rcases happ : applyAll (fun m n => appendChildOp m target.id n) st.mount children with _ | m
    · rw [happ] at h; cases h
    · rw [happ] at h
      simp only [Option.map_some', Option.some.injEq, Prod.mk.injEq] at h
      rw [← h.1]
      simp [rootReplacementOf, isReplacePatch]
  | AddAttributes attrs =>
    simp only at h
    rcases happ : setDomAttrsOp st.mount target.id attrs with _ | m
    · rw [happ] at h; cases h
    · rw [happ] at h
      simp only [Option.map_some', Option.some.injEq, Prod.mk.injEq] at h
      rw [← h.1]
      simp [rootReplacementOf, isReplacePatch]
  | RemoveAttributes attrs =>
    simp only at h
    rcases happ : removeDomAttrsOp st.mount target.id attrs with _ | m
    · rw [happ] at h; cases h
    · rw [happ] at h
      simp only [Option.map_some', Option.some.injEq, Prod.mk.injEq] at h
      rw [← h.1]
      simp [rootReplacementOf, isReplacePatch]
  | RemoveNode =>
    simp only at h
    rcases happ : removeNodeOp st.mount target.id with _ | m
    · rw [happ] at h; cases h
    · rw [happ] at h
      simp only [Option.map_some', Option.some.injEq, Prod.mk.injEq] at h
      rw [← h.1]
      simp [rootReplacementOf, isReplacePatch]
  | ClearChildren =>
    simp only at h
    rcases happ : clearChildrenOp st.mount target.id with _ | m
    · rw [happ] at h; cases h
    · rw [happ] at h
      simp only [Option.map_some', Option.some.injEq, Prod.mk.injEq] at h
      rw [← h.1]
      simp [rootReplacementOf, isReplacePatch]
  | MoveBeforeNode for_moving =>
    simp only at h
    rcases hpar : findParent target.id st.mount with _ | parent
    · rw [hpar] at h; cases h
    · rw [hpar] at h
      simp only at h
      rcases happ : applyAll (fun m n =>
          match removeChildOp m parent.id n.id with
          | some m2 => insertBeforeOp m2 target.id n
          | none => none) st.mount for_moving with _ | m
      · rw [happ] at h; cases h
      · rw [happ] at h
        simp only [Option.map_some', Option.some.injEq, Prod.mk.injEq] at h
        rw [← h.1]
        simp [rootReplacementOf, isReplacePatch]
  | MoveAfterNode for_moving =>
    simp only at h
    rcases hpar : findParent target.id st.mount with _ | parent
    · rw [hpar] at h
      simp only at h
      simp only [Option.some.injEq, Prod.mk.injEq] at h
      rw [← h.1]
      simp [rootReplacementOf, isReplacePatch]
    · rw [hpar] at h
      simp only at h
      rcases happ : applyAll (fun m n =>
          match removeChildOp m parent.id n.id with
          | some m2 => insertAfterOp m2 target.id n
          | none => none) st.mount for_moving with _ | m
      · rw [happ] at h; cases h
      · rw [happ] at h
        simp only [Option.map_some', Option.some.injEq, Prod.mk.injEq] at h
        rw [← h.1]
        simp [rootReplacementOf, isReplacePatch]
  | ReplaceNode replacement =>
    simp only at h
    rcases replacement with _ | ⟨first, rest⟩
    · cases h
    · simp only at h
      by_cases hfr : target.is_fragment = true
      · rw [if_pos hfr] at h
        by_cases hemp : patch_path.isEmpty = true
        · rw [if_pos hemp] at h
          rcases happ : applyAll (fun m n => some (m ++ [n])) (st.mount ++ [first]) rest with _ | m
          · rw [happ] at h; cases h
          · rw [happ] at h
            simp only [Option.map_some', Option.some.injEq, Prod.mk.injEq] at h
            rw [← h.1]
            simp [rootReplacementOf, isReplacePatch, hemp]
        · rw [if_neg hemp] at h; cases h
      · rw [if_neg hfr] at h
        rcases hrep : replaceNodeOp st.mount target.id first with _ | m
        · rw [hrep] at h; cases h
        · rw [hrep] at h
          simp only at h
          rcases happ : applyAll (fun m2 n => insertAfterOp m2 first.id n) m rest.reverse with _ | m2
          · rw [happ] at h; cases h
          · rw [happ] at h
            simp only [Option.some.injEq, Prod.mk.injEq] at h
            rw [← h.1]
            by_cases hemp : patch_path.isEmpty = true
            · simp [rootReplacementOf, isReplacePatch, hemp]
            · simp [rootReplacementOf, isReplacePatch, hemp]

theorem getLast?_cons_isSome (c : α) (cl : List α) :
    ((c :: cl).getLast?).isSome = true := by
  induction cl generalizing c with
  | nil => rfl
  | cons d dl ih =>
    rw [List.getLast?_cons_cons]
    exact ih d

theorem filterMap_getLast?_cons (f : α → Option β) (p : α) (ps : List α) :
    ((p :: ps).filterMap f).getLast? =
      if ((ps.filterMap f).getLast?).isSome then (ps.filterMap f).getLast? else f p := by
  rw [List.filterMap_cons]
  rcases hf : f p with _ | b
  · rcases hx : (ps.filterMap f).getLast? with _ | x
    · simp [hx]
    · simp [hx]
  · rcases hl : ps.filterMap f with _ | ⟨c, cl⟩
    · simp [hl]
    · rw [List.getLast?_cons_cons]
      rw [hl] at *
      simp [getLast?_cons_isSome c cl]

theorem apply_dom_patches_root : ∀ (ps : List DomPatch) (st : DomState)
    (r : Option DomNode) (st2 : DomState),
    apply_dom_patches st ps = some (r, st2) →
    r = (ps.filterMap rootReplacementOf).getLast? ∧
      (r.isSome = true ↔
        ∃ p ∈ ps, p.patch_path.isEmpty = true ∧ isReplacePatch p = true) := by
  intro ps
  induction ps with
  | nil =>
    intro st r st2 h
    rw [apply_dom_patches] at h
    simp only [Option.some.injEq, Prod.mk.injEq] at h
    rw [← h.1]
    simp
  | cons p ps ih =>
    intro st r st2 h
    rw [apply_dom_patches] at h
    rcases h1 : apply_dom_patch st p with _ | ⟨r0, st0⟩
    · rw [h1] at h; cases h
    · rw [h1] at h
      simp only at h
      rcases h2 : apply_dom_patches st0 ps with _ | ⟨r1, st1⟩
      · rw [h2] at h; cases h
      · rw [h2] at h
        simp only [Option.some.injEq, Prod.mk.injEq] at h
        rcases apply_dom_patch_root st p r0 st0 h1 with ⟨hr0, hiff0⟩
        rcases ih st0 r1 st1 h2 with ⟨hr1, hiff1⟩
        constructor
        · rw [← h.1, filterMap_getLast?_cons, ← hr1, ← hr0]
        · rw [← h.1]
          by_cases hs1 : r1.isSome = true
          · rw [if_pos hs1]
            constructor
            · intro _
              rcases hiff1.1 hs1 with ⟨q, hq, hcond⟩
              exact ⟨q, by simp [hq], hcond⟩
            · intro _
              exact hs1
          · rw [if_neg hs1]
            constructor
            · intro hs0
              exact ⟨p, by simp, hiff0.1 hs0⟩
            · rintro ⟨q, hq, hcond⟩
              rcases List.mem_cons.1 hq with rfl | hmem
              · exact hiff0.2 hcond
              · exact absurd (hiff1.2 ⟨q, hmem, hcond⟩) hs1

theorem apply_dom_patches_append : ∀ (ps : List DomPatch) (st : DomState)
    (qs : List DomPatch),
    apply_dom_patches st (ps ++ qs) =
      (apply_dom_patches st ps).bind (fun x =>
        (apply_dom_patches x.2 qs).map (fun y =>
          ((if y.1.isSome then y.1 else x.1), y.2))) := by
  intro ps
  induction ps with
  | nil =>
    intro st qs
    rw [List.nil_append, apply_dom_patches]
    simp only [Option.some_bind]
    rcases happ : apply_dom_patches st qs with _ | ⟨ry, sy⟩
    · rfl
    · simp only [Option.map_some']
      rcases ry with _ | y
      · rfl
      · rfl
  | cons p ps ih =>
    intro st qs
    rw [List.cons_append, apply_dom_patches, apply_dom_patches]
    rcases h1 : apply_dom_patch st p with _ | ⟨r0, st0⟩
    · rfl
    · simp only
      rw [ih st0 qs]
      rcases h2 : apply_dom_patches st0 ps with _ | ⟨r1, st1⟩
      · rfl
      · simp only [Option.some_bind]
        rcases h3 : apply_dom_patches st1 qs with _ | ⟨rq, sq⟩
        · rfl
        · simp only [Option.map_some', Option.some_bind]
          rcases rq with _ | q
          · rcases r1 with _ | x <;> rfl
          · rfl

/-- C8: `apply_dom_patches` applies the patches strictly sequentially
in input order (it composes over concatenation, each patch applied
once by the single-patch step), and returns `some node` exactly when
some patch is a root replacement — a `ReplaceNode` at the empty path —
with `node` the first replacement node of the last such patch. -/
theorem apply_dom_patches_spec (st : DomState) (ps : List DomPatch) :
    (∀ r st2, apply_dom_patches st ps = some (r, st2) →
      r = (ps.filterMap rootReplacementOf).getLast? ∧
        (r.isSome = true ↔
          ∃ p ∈ ps, p.patch_path.isEmpty = true ∧ isReplacePatch p = true)) ∧
    (∀ qs, apply_dom_patches st (ps ++ qs) =
      (apply_dom_patches st ps).bind (fun x =>
        (apply_dom_patches x.2 qs).map (fun y =>
          ((if y.1.isSome then y.1 else x.1), y.2)))) :=
  ⟨fun r st2 h => apply_dom_patches_root ps st r st2 h,
   fun qs => apply_dom_patches_append ps st qs⟩

/-- Witness for C8: a root `ReplaceNode` of a fragment root returns
the first replacement node. -/
theorem apply_dom_patches_witness :
    (some (DomNode.mk 1 (some "div") false [] []) : Option DomNode) =
      ([DomPatch.mk [] (.mk 0 none true [] [])
          (.ReplaceNode [.mk 1 (some "div") false [] []])].filterMap
        rootReplacementOf).getLast? :=
  ((apply_dom_patches_spec ⟨[]⟩
      [⟨[], .mk 0 none true [] [], .ReplaceNode [.mk 1 (some "div") false [] []]⟩]).1
    (some (.mk 1 (some "div") false [] []))
    ⟨[.mk 1 (some "div") false [] []]⟩ rfl).1

theorem sizeOf_children_lt (c : DomNode) : sizeOf c.children < sizeOf c := by
  cases c with
  | mk i t f a kids =>
    simp only [DomNode.children, DomNode.mk.sizeOf_spec]
    omega

theorem containsId_false {c : DomNode} {tid : Nat} (h : containsId c tid = false) :
    (c.id == tid) = false ∧ ∀ k ∈ c.children, containsId k tid = false := by
  cases c with
  | mk i t f a kids =>
    rw [containsId] at h
    rw [Bool.or_eq_false_iff] at h
    refine ⟨by simpa [DomNode.id] using h.1, ?_⟩
    intro k hk
    have := List.any_eq_false.1 h.2 ⟨k, hk⟩ (List.mem_attach _ _)
    simpa using this

theorem forestSplice_not_found (tid : Nat) (g : DomNode → List DomNode → List DomNode) :
    ∀ (n : Nat) (l : List DomNode), sizeOf l ≤ n →
      (∀ c ∈ l, containsId c tid = false) → forestSplice tid g l = none := by
  intro n
  induction n with
  | zero =>
    intro l hsz _
    cases l <;> simp at hsz
  | succ m ih =>
    intro l hsz hall
    cases l with
    | nil => rw [forestSplice]
    | cons c cs =>
      rw [forestSplice]
      have hc := containsId_false (hall c (by simp))
      simp only [hc.1, Bool.false_eq_true, if_false]
      have hszc : sizeOf (c :: cs) = 1 + sizeOf c + sizeOf cs := by
        simp [List.cons.sizeOf_spec]
      have h1 : forestSplice tid g c.children = none := by
        refine ih c.children ?_ hc.2
        have := sizeOf_children_lt c
        omega
      have h2 : forestSplice tid g cs = none := by
        refine ih cs ?_ (fun d hd => hall d (by simp [hd]))
        omega
      rw [h1, h2]

theorem forestSplice_found (tid : Nat) (g : DomNode → List DomNode → List DomNode) :
    ∀ (pre : List DomNode) (t : DomNode) (post : List DomNode),
      t.id = tid → (∀ c ∈ pre, containsId c tid = false) →
      forestSplice tid g (pre ++ t :: post) = some (pre ++ g t post) := by
  intro pre
  induction pre with
  | nil =>
    intro t post htid _
    rw [List.nil_append, forestSplice]
    have : (t.id == tid) = true := by simpa using htid
    rw [this]
    simp
  | cons c pre2 ih =>
    intro t post htid hall
    rw [List.cons_append, forestSplice]
    have hc := containsId_false (hall c (by simp))
    simp only [hc.1, Bool.false_eq_true, if_false]
    have h1 : forestSplice tid g c.children = none :=
      forestSplice_not_found tid g (sizeOf c.children) c.children (le_refl _) hc.2
    rw [h1]
    rw [ih t post htid (fun d hd => hall d (by simp [hd]))]
    rfl

theorem applyAll_after (tid : Nat) (t : DomNode) (htid : t.id = tid)
    (pre : List DomNode) (hpre : ∀ c ∈ pre, containsId c tid = false) :
    ∀ (l acc : List DomNode),
      applyAll (fun m n => insertAfterOp m tid n) (pre ++ t :: acc) l =
        some (pre ++ t :: (l.reverse ++ acc)) := by
  intro l
  induction l with
  | nil => intro acc; rw [applyAll]; simp
  | cons n ns ih =>
    intro acc
    rw [applyAll]
    have hstep : insertAfterOp (pre ++ t :: acc) tid n = some (pre ++ t :: n :: acc) := by
      rw [insertAfterOp]
      exact forestSplice_found tid _ pre t acc htid hpre
    rw [hstep]
    simp only
    rw [ih (n :: acc)]
    simp [List.append_assoc]

theorem applyAll_before (tid : Nat) (t : DomNode) (htid : t.id = tid) :
    ∀ (l pre post : List DomNode),
      (∀ c ∈ pre, containsId c tid = false) →
      (∀ n ∈ l, containsId n tid = false) →
      applyAll (fun m n => insertBeforeOp m tid n) (pre ++ t :: post) l =
        some ((pre ++ l) ++ t :: post) := by
  intro l
  induction l with
  | nil =>
    intro pre post _ _
    rw [applyAll]
    simp
  | cons n ns ih =>
    intro pre post hpre hl
    rw [applyAll]
    have hstep : insertBeforeOp (pre ++ t :: post) tid n =
        some ((pre ++ [n]) ++ t :: post) := by
      rw [insertBeforeOp]
      rw [forestSplice_found tid _ pre t post htid hpre]
      simp
    rw [hstep]
    simp only
    have hpre2 : ∀ c ∈ pre ++ [n], containsId c tid = false := by
      intro c hc
      rcases List.mem_append.1 hc with h1 | h2
      · exact hpre c h1
      · rcases List.mem_singleton.1 h2 with rfl
        exact hl c (by simp)
    rw [ih (pre ++ [n]) post hpre2 (fun d hd => hl d (by simp [hd]))]
    simp [List.append_assoc]

/-- C10: `InsertAfterNode` inserts its nodes in reverse iteration
order, so that the resulting sibling order immediately after the
target preserves the list order, matching the forward-order insertion
of `InsertBeforeNode` immediately before the target. -/
theorem insert_order_spec (pre post nodes : List DomNode) (t : DomNode) (pp : TreePath)
    (hpre : ∀ c ∈ pre, containsId c t.id = false)
    (hnodes : ∀ n ∈ nodes, containsId n t.id = false) :
    apply_dom_patch ⟨pre ++ t :: post⟩ ⟨pp, t, .InsertAfterNode nodes⟩ =
      some (none, ⟨pre ++ t :: (nodes ++ post)⟩) ∧
    apply_dom_patch ⟨pre ++ t :: post⟩ ⟨pp, t, .InsertBeforeNode nodes⟩ =
      some (none, ⟨(pre ++ nodes) ++ t :: post⟩) := by
  constructor
  · rw [apply_dom_patch]
    simp only
    rw [applyAll_after t.id t rfl pre hpre nodes.reverse post]
    simp
  · rw [apply_dom_patch]
    simp only
    rw [applyAll_before t.id t rfl nodes pre post hpre hnodes]
    rfl

/-- Witness for C10: inserting two nodes after a concrete target keeps
their list order. -/
theorem insert_order_witness :
    apply_dom_patch ⟨[DomNode.mk 1 none false [] [], DomNode.mk 0 none false [] []]⟩
        ⟨[], DomNode.mk 0 none false [] [],
          .InsertAfterNode [DomNode.mk 2 none false [] [], DomNode.mk 3 none false [] []]⟩ =
      some (none, ⟨[DomNode.mk 1 none false [] [], DomNode.mk 0 none false [] [],
        DomNode.mk 2 none false [] [], DomNode.mk 3 none false [] []]⟩) := by
  have h := (insert_order_spec [DomNode.mk 1 none false [] []] []
    [DomNode.mk 2 none false [] [], DomNode.mk 3 none false [] []]
    (DomNode.mk 0 none false [] []) []
    (by intro c hc
        rcases List.mem_singleton.1 hc with rfl
        rw [containsId]
        rfl)
    (by intro n hn
        rcases List.mem_cons.1 hn with rfl | hn2
        · rw [containsId]; rfl
        · rcases List.mem_singleton.1 hn2 with rfl
          rw [containsId]; rfl)).1
  simpa using h
